import Mathlib

/-!
Verification development for the concurrency exercises of
`src/rust-primer/module_5/mod_5_exercises/src/solution.rs`.

The file contains three shallow embeddings:

* an interleaving semantics for the `counter` / `incr` demo (a shared
  integer behind `Arc<Mutex<...>>`, incremented 50 times by a spawned
  worker thread and 50 times by the calling context, then joined).
  In the repository the bodies of `incr` and `counter` are
  `panic!("TODO milestone primer-mod5")` placeholders, so this part is
  modelled from the specification text rather than from function bodies;

* an interleaving semantics for the `read_write` function, which is fully
  implemented in the source: a shared integer behind `Arc<Mutex<i32>>`
  (a mutual-exclusion lock, not a reader/writer lock), ten spawned reader
  threads each looping 20 times `{ lock; println!("Read value as {}", *r) }`,
  the calling context looping 20 times
  `{ lock; *val += 1; println!("Incremented value by 1 to {}", *val) }`,
  and finally a join of all ten reader handles;

* a variant of the `read_write` semantics with lock poisoning: every
  acquisition in the source is `lock().unwrap()`, and `std::sync::Mutex`
  poisons the lock when a holder terminates abnormally inside the critical
  section, making every later `lock()` return `Err`, which `unwrap`
  turns into a panic.
-/

set_option maxHeartbeats 1000000
set_option maxRecDepth 100000

/-! ## The `counter` / `incr` demo

Modelled from the spec: the bodies of `incr` and `counter` in
`solution.rs` are `panic!("TODO milestone primer-mod5")` stubs; only their
signatures and the comment inside `counter` are present.  The spec says:
`increment_n_times(shared_handle, n)` acquires exclusive access to the
guarded integer, increments it by 1, releases access, and repeats exactly
`n` times, each acquisition/release pair a separate critical section;
`run_demo()` wraps an initial value in a reference-counted lock-guarded
handle, spawns one worker doing 50 increments, does 50 increments in the
calling context, and joins the worker.

Actors are identified by a `Bool`: `true` is the spawned worker thread,
`false` is the calling (main) context. -/

/-- Position of an actor inside one `incr` critical section:
before `lock()`, after `lock()` but before the increment, or after the
increment but before the guard is dropped. -/
inductive APh
  | ready
  | locked
  | incd
deriving DecidableEq

/-- Position of the calling context of `counter`: the same three positions
per critical section, plus the state after the `join` of the worker. -/
inductive MCPh
  | ready
  | locked
  | incd
  | returned
deriving DecidableEq

/-- State of the `counter` demo: the guarded integer, the holder of the
mutex (if any), the number of completed increments and the phase of each
of the two actors. -/
structure CState where
  value : Int
  holder : Option Bool
  wdone : Nat
  wph : APh
  mdone : Nat
  mph : MCPh
deriving DecidableEq

/-- Events of the `counter` demo: mutex acquisition, the increment, and
the release (guard drop) by actor `a`, plus the final join of the worker
by the calling context. -/
inductive CEv
  | acq (a : Bool)
  | incE (a : Bool)
  | rel (a : Bool)
  | joinEv
deriving DecidableEq

/-- Initial state of the `counter` demo with initial value `v0`. -/
def cInit (v0 : Int) : CState :=
  { value := v0, holder := none, wdone := 0, wph := APh.ready
    mdone := 0, mph := MCPh.ready }

/-- Labelled interleaving step of the `counter` demo with `n` increments
per actor.  Each critical section is three micro-steps: acquire the mutex
(only when free), increment the guarded integer by 1, release the mutex.
After its `n` sections the calling context joins the worker, which must
have completed its own `n` sections. -/
inductive CStep (n : Nat) : CState → CEv → CState → Prop
  | acqW (s : CState) (hph : s.wph = APh.ready) (hlt : s.wdone < n) (hfree : s.holder = none) :
      CStep n s (CEv.acq true) { s with holder := some true, wph := APh.locked }
  | incW (s : CState) (hph : s.wph = APh.locked) :
      CStep n s (CEv.incE true) { s with value := s.value + 1, wph := APh.incd }
  | relW (s : CState) (hph : s.wph = APh.incd) :
      CStep n s (CEv.rel true) { s with holder := none, wph := APh.ready, wdone := s.wdone + 1 }
  | acqM (s : CState) (hph : s.mph = MCPh.ready) (hlt : s.mdone < n) (hfree : s.holder = none) :
      CStep n s (CEv.acq false) { s with holder := some false, mph := MCPh.locked }
  | incM (s : CState) (hph : s.mph = MCPh.locked) :
      CStep n s (CEv.incE false) { s with value := s.value + 1, mph := MCPh.incd }
  | relM (s : CState) (hph : s.mph = MCPh.incd) :
      CStep n s (CEv.rel false) { s with holder := none, mph := MCPh.ready, mdone := s.mdone + 1 }
  | joinS (s : CState) (hph : s.mph = MCPh.ready) (hm : s.mdone = n) (hw : s.wdone = n)
      (hwp : s.wph = APh.ready) :
      CStep n s CEv.joinEv { s with mph := MCPh.returned }

/-- Finite executions of the `counter` demo, recording the trace of events. -/
inductive CSteps (n : Nat) : CState → List CEv → CState → Prop
  | refl (s : CState) : CSteps n s [] s
  | step {s u s' : CState} {e : CEv} {tr : List CEv} :
      CStep n s e u → CSteps n u tr s' → CSteps n s (e :: tr) s'

/-- Inductive invariant of the `counter` demo: the guarded value accounts
for every completed increment plus the pending one of an actor that has
already incremented inside its current critical section; iteration
counters are bounded; the mutex holder field agrees with the phases; and
a returned main context has joined a finished worker. -/
structure CInv (n : Nat) (v0 : Int) (s : CState) : Prop where
  hval : s.value = v0 + s.wdone + s.mdone
      + (if s.wph = APh.incd then 1 else 0) + (if s.mph = MCPh.incd then 1 else 0)
  hwle : s.wdone ≤ n
  hwlt : s.wph ≠ APh.ready → s.wdone < n
  hmle : s.mdone ≤ n
  hmlt : s.mph = MCPh.locked ∨ s.mph = MCPh.incd → s.mdone < n
  hwh : s.wph ≠ APh.ready → s.holder = some true
  hmh : s.mph = MCPh.locked ∨ s.mph = MCPh.incd → s.holder = some false
  hhw : s.holder = some true → s.wph ≠ APh.ready
  hhm : s.holder = some false → s.mph = MCPh.locked ∨ s.mph = MCPh.incd
  hret : s.mph = MCPh.returned → s.mdone = n ∧ s.wdone = n ∧ s.wph = APh.ready

theorem cInv_init (n : Nat) (v0 : Int) : CInv n v0 (cInit v0) := by
  refine ⟨?_, ?_, ?_, ?_, ?_, ?_, ?_, ?_, ?_, ?_⟩ <;> simp [cInit]

theorem cInv_step {n : Nat} {v0 : Int} {s s' : CState} {e : CEv}
    (h : CStep n s e s') (hi : CInv n v0 s) : CInv n v0 s' := by
  obtain ⟨hval, hwle, hwlt, hmle, hmlt, hwh, hmh, hhw, hhm, hret⟩ := hi
  cases h with
  | acqW hph hlt hfree =>
      refine ⟨?_, hwle, fun _ => hlt, hmle, hmlt, fun _ => rfl, ?_, ?_, ?_, ?_⟩
      · have h0 := hval; rw [hph] at h0; simpa using h0
      · intro hm; have h2 := hmh hm; rw [hfree] at h2; simp at h2
      · intro _; simp
      · intro hf; simp at hf
      · intro hr; rcases hret hr with ⟨h1, h2, h3⟩
        exact absurd h2 (Nat.ne_of_lt hlt)
  | incW hph =>
      refine ⟨?_, hwle, ?_, hmle, hmlt, ?_, hmh, ?_, hhm, ?_⟩
      · have h0 := hval; rw [hph] at h0; simp at h0 ⊢; linarith [h0]
      · intro _; exact hwlt (by rw [hph]; simp)
      · intro _; exact hwh (by rw [hph]; simp)
      · intro _; simp
      · intro hr; rcases hret hr with ⟨h1, h2, h3⟩; rw [hph] at h3; simp at h3
  | relW hph =>
      refine ⟨?_, ?_, ?_, hmle, hmlt, ?_, ?_, ?_, ?_, ?_⟩
      · have h0 := hval; rw [hph] at h0; simp at h0 ⊢; linarith [h0]
      · have := hwlt (by rw [hph]; simp); show s.wdone + 1 ≤ n; omega
      · intro hf; simp at hf
      · intro hf; simp at hf
      · intro hm; have h2 := hmh hm; have h3 := hwh (by rw [hph]; simp)
        rw [h2] at h3; simp at h3
      · intro hf; simp at hf
      · intro hf; simp at hf
      · intro hr; rcases hret hr with ⟨_, _, h3⟩; rw [hph] at h3; simp at h3
  | acqM hph hlt hfree =>
      refine ⟨?_, hwle, hwlt, hmle, fun _ => hlt, ?_, fun _ => rfl, ?_, fun _ => Or.inl rfl, ?_⟩
      · have h0 := hval; rw [hph] at h0; simpa using h0
      · intro hw; have h2 := hwh hw; rw [hfree] at h2; simp at h2
      · intro hf; simp at hf
      · intro hr; simp at hr
  | incM hph =>
      refine ⟨?_, hwle, hwlt, hmle, fun _ => hmlt (Or.inl hph), hwh,
        fun _ => hmh (Or.inl hph), hhw, fun _ => Or.inr rfl, ?_⟩
      · have h0 := hval; rw [hph] at h0; simp at h0 ⊢; linarith [h0]
      · intro hr; simp at hr
  | relM hph =>
      refine ⟨?_, hwle, hwlt, ?_, ?_, ?_, ?_, ?_, ?_, ?_⟩
      · have h0 := hval; rw [hph] at h0; simp at h0 ⊢; linarith [h0]
      · have := hmlt (Or.inr hph); show s.mdone + 1 ≤ n; omega
      · rintro (h | h) <;> simp at h
      · intro hw; have h2 := hwh hw; have h3 := hmh (Or.inr hph)
        rw [h2] at h3; simp at h3
      · rintro (h | h) <;> simp at h
      · intro hf; simp at hf
      · intro hf; simp at hf
      · intro hr; simp at hr
  | joinS hph hm hw hwp =>
      refine ⟨?_, hwle, hwlt, hmle, ?_, hwh, ?_, hhw, ?_, ?_⟩
      · have h0 := hval; rw [hph] at h0; simpa using h0
      · rintro (h | h) <;> simp at h
      · rintro (h | h) <;> simp at h
      · intro hf; rcases hhm hf with h | h <;> (rw [hph] at h; simp at h)
      · intro _; exact ⟨hm, hw, hwp⟩

theorem cInv_steps {n : Nat} {v0 : Int} {s s' : CState} {tr : List CEv}
    (h : CSteps n s tr s') (hi : CInv n v0 s) : CInv n v0 s' := by
  induction h with
  | refl => exact hi
  | step hst _ ih => exact ih (cInv_step hst hi)

/-! ### An executable interpreter for the `counter` demo

`cRunEv` is the functional version of `CStep`: it checks the guards of the
unique applicable rule and returns the successor state.  It is used to
build concrete executions for witnesses. -/

def cRunEv (n : Nat) (s : CState) : CEv → Option CState
  | CEv.acq true =>
      if s.wph = APh.ready ∧ s.wdone < n ∧ s.holder = none then
        some { s with holder := some true, wph := APh.locked } else none
  | CEv.incE true =>
      if s.wph = APh.locked then
        some { s with value := s.value + 1, wph := APh.incd } else none
  | CEv.rel true =>
      if s.wph = APh.incd then
        some { s with holder := none, wph := APh.ready, wdone := s.wdone + 1 } else none
  | CEv.acq false =>
      if s.mph = MCPh.ready ∧ s.mdone < n ∧ s.holder = none then
        some { s with holder := some false, mph := MCPh.locked } else none
  | CEv.incE false =>
      if s.mph = MCPh.locked then
        some { s with value := s.value + 1, mph := MCPh.incd } else none
  | CEv.rel false =>
      if s.mph = MCPh.incd then
        some { s with holder := none, mph := MCPh.ready, mdone := s.mdone + 1 } else none
  | CEv.joinEv =>
      if s.mph = MCPh.ready ∧ s.mdone = n ∧ s.wdone = n ∧ s.wph = APh.ready then
        some { s with mph := MCPh.returned } else none

def cRunTr (n : Nat) : CState → List CEv → Option CState
  | s, [] => some s
  | s, e :: tr =>
      match cRunEv n s e with
      | some u => cRunTr n u tr
      | none => none

theorem cRunEv_sound {n : Nat} {s s' : CState} {e : CEv}
    (h : cRunEv n s e = some s') : CStep n s e s' := by
  cases e with
  | acq a =>
      cases a with
      | true =>
          simp only [cRunEv] at h
          split_ifs at h with hc
          · obtain ⟨h1, h2, h3⟩ := hc; injection h with h4; subst h4
            exact CStep.acqW s h1 h2 h3
      | false =>
          simp only [cRunEv] at h
          split_ifs at h with hc
          · obtain ⟨h1, h2, h3⟩ := hc; injection h with h4; subst h4
            exact CStep.acqM s h1 h2 h3
  | incE a =>
      cases a with
      | true =>
          simp only [cRunEv] at h
          split_ifs at h with hc
          · injection h with h4; subst h4; exact CStep.incW s hc
      | false =>
          simp only [cRunEv] at h
          split_ifs at h with hc
          · injection h with h4; subst h4; exact CStep.incM s hc
  | rel a =>
      cases a with
      | true =>
          simp only [cRunEv] at h
          split_ifs at h with hc
          · injection h with h4; subst h4; exact CStep.relW s hc
      | false =>
          simp only [cRunEv] at h
          split_ifs at h with hc
          · injection h with h4; subst h4; exact CStep.relM s hc
  | joinEv =>
      simp only [cRunEv] at h
      split_ifs at h with hc
      · obtain ⟨h1, h2, h3, h4⟩ := hc; injection h with h5; subst h5
        exact CStep.joinS s h1 h2 h3 h4

theorem cRunTr_sound {n : Nat} (tr : List CEv) : ∀ s s' : CState,
    cRunTr n s tr = some s' → CSteps n s tr s' := by
  induction tr with
  | nil =>
      intro s s' h
      simp only [cRunTr] at h
      injection h with h1; subst h1
      exact CSteps.refl s
  | cons e tr ih =>
      intro s s' h
      simp only [cRunTr] at h
      cases hu : cRunEv n s e with
      | none => rw [hu] at h; exact absurd h (by simp)
      | some u => rw [hu] at h; exact CSteps.step (cRunEv_sound hu) (ih u s' h)

/-- The single `incr` critical section of actor `a`, as an event pattern. -/
def cPat (a : Bool) : List CEv := [CEv.acq a, CEv.incE a, CEv.rel a]

/-- `k` consecutive `incr` critical sections of actor `a`. -/
def cBlocks (a : Bool) : Nat → List CEv
  | 0 => []
  | k + 1 => cPat a ++ cBlocks a k

/-- A concrete sequential schedule of the `counter` demo: the worker runs
its `n` critical sections, then the calling context runs its `n` critical
sections and joins. -/
def cTrace (n : Nat) : List CEv := cBlocks true n ++ (cBlocks false n ++ [CEv.joinEv])

def cCheck : Bool :=
  match cRunTr 50 (cInit 0) (cTrace 50) with
  | some s => decide (s.mph = MCPh.returned ∧ s.value = 100)
  | none => false

theorem cExec : ∃ tr s, CSteps 50 (cInit 0) tr s ∧ s.mph = MCPh.returned ∧ s.value = 100 := by
  have h : cCheck = true := by decide
  unfold cCheck at h
  cases hr : cRunTr 50 (cInit 0) (cTrace 50) with
  | none => rw [hr] at h; simp at h
  | some s =>
      rw [hr] at h
      simp only [decide_eq_true_eq] at h
      exact ⟨cTrace 50, s, cRunTr_sound _ _ _ hr, h.1, h.2⟩

/-! ### Termination measure and progress for the `counter` demo -/

/-- Number of micro-steps still to be executed by the two actors. -/
def cMeasure (n : Nat) (s : CState) : Nat :=
  (match s.wph with
   | APh.ready => 3 * (n - s.wdone)
   | APh.locked => 3 * (n - s.wdone - 1) + 2
   | APh.incd => 3 * (n - s.wdone - 1) + 1)
  + (match s.mph with
     | MCPh.ready => 3 * (n - s.mdone) + 2
     | MCPh.locked => 3 * (n - s.mdone - 1) + 4
     | MCPh.incd => 3 * (n - s.mdone - 1) + 3
     | MCPh.returned => 0)

theorem cStep_measure {n : Nat} {s s' : CState} {e : CEv} (h : CStep n s e s') :
    cMeasure n s' < cMeasure n s := by
  cases h with
  | acqW hph hlt hfree => simp only [cMeasure, hph]; omega
  | incW hph => simp only [cMeasure, hph]; omega
  | relW hph => simp only [cMeasure, hph]; omega
  | acqM hph hlt hfree => simp only [cMeasure, hph]; omega
  | incM hph => simp only [cMeasure, hph]; omega
  | relM hph => simp only [cMeasure, hph]; omega
  | joinS hph hm hw hwp => simp only [cMeasure, hph, hm, hw, hwp]; omega

theorem cSteps_len {n : Nat} {s s' : CState} {tr : List CEv} (h : CSteps n s tr s') :
    tr.length + cMeasure n s' ≤ cMeasure n s := by
  induction h with
  | refl => simp
  | step hst _ ih =>
      have := cStep_measure hst
      simp only [List.length_cons]
      omega

/-- A non-returned reachable state of the `counter` demo always has an
enabled step: the demo cannot deadlock. -/
theorem c_progress {n : Nat} {v0 : Int} {s : CState} (hi : CInv n v0 s)
    (hne : s.mph ≠ MCPh.returned) : ∃ e s', CStep n s e s' := by
  obtain ⟨hval, hwle, hwlt, hmle, hmlt, hwh, hmh, hhw, hhm, hret⟩ := hi
  cases hh : s.holder with
  | some a =>
      cases a with
      | true =>
          have hw := hhw hh
          cases hwp : s.wph with
          | ready => exact absurd hwp hw
          | locked => exact ⟨_, _, CStep.incW s hwp⟩
          | incd => exact ⟨_, _, CStep.relW s hwp⟩
      | false =>
          rcases hhm hh with hm | hm
          · exact ⟨_, _, CStep.incM s hm⟩
          · exact ⟨_, _, CStep.relM s hm⟩
  | none =>
      have hwp : s.wph = APh.ready := by
        by_contra hc
        have h2 := hwh hc
        rw [h2] at hh; simp at hh
      cases hmp : s.mph with
      | ready =>
          by_cases hmd : s.mdone < n
          · exact ⟨_, _, CStep.acqM s hmp hmd hh⟩
          · have hmn : s.mdone = n := le_antisymm hmle (not_lt.mp hmd)
            by_cases hwd : s.wdone < n
            · exact ⟨_, _, CStep.acqW s hwp hwd hh⟩
            · have hwn : s.wdone = n := le_antisymm hwle (not_lt.mp hwd)
              exact ⟨_, _, CStep.joinS s hmp hmn hwn hwp⟩
      | locked =>
          have h2 := hmh (Or.inl hmp); rw [h2] at hh; simp at hh
      | incd =>
          have h2 := hmh (Or.inr hmp); rw [h2] at hh; simp at hh
      | returned => exact absurd hmp hne

/-! ### Per-actor projection of `counter` traces -/

/-- The actor performing an event, if any. -/
def actorOfC : CEv → Option Bool
  | CEv.acq a => some a
  | CEv.incE a => some a
  | CEv.rel a => some a
  | CEv.joinEv => none

/-- The subsequence of a trace performed by actor `a` inside critical
sections (lock acquisitions, increments and releases). -/
def actorEvs (a : Bool) (tr : List CEv) : List CEv :=
  tr.filter (fun e => decide (actorOfC e = some a))

/-- Events already emitted by the worker inside its current critical
section, as a function of its phase. -/
def cPfxW : APh → List CEv
  | APh.ready => []
  | APh.locked => [CEv.acq true]
  | APh.incd => [CEv.acq true, CEv.incE true]

/-- Events already emitted by the calling context inside its current
critical section, as a function of its phase. -/
def cPfxM : MCPh → List CEv
  | MCPh.ready => []
  | MCPh.locked => [CEv.acq false]
  | MCPh.incd => [CEv.acq false, CEv.incE false]
  | MCPh.returned => []

def cPfx (s : CState) : Bool → List CEv
  | true => cPfxW s.wph
  | false => cPfxM s.mph

/-- Completed increments of actor `a`. -/
def adone (s : CState) : Bool → Nat
  | true => s.wdone
  | false => s.mdone

theorem cStep_adone {n : Nat} {s s' : CState} {e : CEv} (h : CStep n s e s') (a : Bool) :
    adone s a ≤ adone s' a := by
  cases h <;> cases a <;> simp only [adone] <;> omega

theorem cSteps_adone {n : Nat} {s s' : CState} {tr : List CEv} (h : CSteps n s tr s') (a : Bool) :
    adone s a ≤ adone s' a := by
  induction h with
  | refl => exact Nat.le_refl _
  | step hst _ ih => exact le_trans (cStep_adone hst a) ih

/-- Along any execution, the events of actor `a` are consecutive
critical-section blocks: what was pending at the start, then one
`acq/incE/rel` block per completed increment, then what is pending at the
end. -/
theorem cProj {n : Nat} {s s' : CState} {tr : List CEv} (h : CSteps n s tr s') :
    ∀ a, cPfx s a ++ actorEvs a tr = cBlocks a (adone s' a - adone s a) ++ cPfx s' a := by
  induction h with
  | refl =>
      intro a
      simp [actorEvs, cBlocks]
  | step hst hrest ih =>
      intro a
      rename_i s u s' e tr
      have hmono := cSteps_adone hrest
      cases hst with
      | acqW hph hlt hfree =>
          cases a with
          | true =>
              have IH := ih true
              simp only [cPfx, cPfxW, hph] at IH ⊢
              simp only [actorEvs, List.filter_cons, actorOfC] at IH ⊢
              simp only [adone] at IH ⊢
              simpa using IH
          | false =>
              have IH := ih false
              simp only [cPfx, cPfxM] at IH ⊢
              simp only [actorEvs, List.filter_cons, actorOfC] at IH ⊢
              simp only [adone] at IH ⊢
              simpa using IH
      | incW hph =>
          cases a with
          | true =>
              have IH := ih true
              simp only [cPfx, cPfxW, hph] at IH ⊢
              simp only [actorEvs, List.filter_cons, actorOfC] at IH ⊢
              simp only [adone] at IH ⊢
              simpa using IH
          | false =>
              have IH := ih false
              simp only [cPfx, cPfxM] at IH ⊢
              simp only [actorEvs, List.filter_cons, actorOfC] at IH ⊢
              simp only [adone] at IH ⊢
              simpa using IH
      | relW hph =>
          cases a with
          | true =>
              have IH := ih true
              have hm : s.wdone + 1 ≤ adone s' true := hmono true
              simp only [cPfx, cPfxW, hph] at IH ⊢
              simp only [actorEvs, List.filter_cons, actorOfC] at IH ⊢
              simp only [adone] at IH hm ⊢
              rw [show s'.wdone - s.wdone = (s'.wdone - (s.wdone + 1)) + 1 from by omega]
              simp only [cBlocks]
              simp only [List.nil_append] at IH
              simp [cPat, IH]
          | false =>
              have IH := ih false
              simp only [cPfx, cPfxM] at IH ⊢
              simp only [actorEvs, List.filter_cons, actorOfC] at IH ⊢
              simp only [adone] at IH ⊢
              simpa using IH
      | acqM hph hlt hfree =>
          cases a with
          | true =>
              have IH := ih true
              simp only [cPfx, cPfxW] at IH ⊢
              simp only [actorEvs, List.filter_cons, actorOfC] at IH ⊢
              simp only [adone] at IH ⊢
              simpa using IH
          | false =>
              have IH := ih false
              simp only [cPfx, cPfxM, hph] at IH ⊢
              simp only [actorEvs, List.filter_cons, actorOfC] at IH ⊢
              simp only [adone] at IH ⊢
              simpa using IH
      | incM hph =>
          cases a with
          | true =>
              have IH := ih true
              simp only [cPfx, cPfxW] at IH ⊢
              simp only [actorEvs, List.filter_cons, actorOfC] at IH ⊢
              simp only [adone] at IH ⊢
              simpa using IH
          | false =>
              have IH := ih false
              simp only [cPfx, cPfxM, hph] at IH ⊢
              simp only [actorEvs, List.filter_cons, actorOfC] at IH ⊢
              simp only [adone] at IH ⊢
              simpa using IH
      | relM hph =>
          cases a with
          | true =>
              have IH := ih true
              simp only [cPfx, cPfxW] at IH ⊢
              simp only [actorEvs, List.filter_cons, actorOfC] at IH ⊢
              simp only [adone] at IH ⊢
              simpa using IH
          | false =>
              have IH := ih false
              have hm : s.mdone + 1 ≤ adone s' false := hmono false
              simp only [cPfx, cPfxM, hph] at IH ⊢
              simp only [actorEvs, List.filter_cons, actorOfC] at IH ⊢
              simp only [adone] at IH hm ⊢
              rw [show s'.mdone - s.mdone = (s'.mdone - (s.mdone + 1)) + 1 from by omega]
              simp only [cBlocks]
              simp only [List.nil_append] at IH
              simp [cPat, IH]
      | joinS hph hm hw hwp =>
          cases a with
          | true =>
              have IH := ih true
              simp only [cPfx, cPfxW] at IH ⊢
              simp only [actorEvs, List.filter_cons, actorOfC] at IH ⊢
              simp only [adone] at IH ⊢
              simpa using IH
          | false =>
              have IH := ih false
              simp only [cPfx, cPfxM, hph] at IH ⊢
              simp only [actorEvs, List.filter_cons, actorOfC] at IH ⊢
              simp only [adone] at IH ⊢
              simpa using IH

/-! ## Claims C1 and C2 (ExclusiveCounter) -/

/-- C1: for every initial value `v0`, after the `counter` demo completes
(one spawned worker doing 50 lock-protected increments, 50 increments in
the calling context, then a join), the shared counter equals `v0 + 100`,
regardless of the interleaving.  Modelled from the spec because the bodies
of `incr` and `counter` are TODO stubs in the source. -/
theorem c1_counter_sum (v0 : Int) (tr : List CEv) (s : CState)
    (h : CSteps 50 (cInit v0) tr s) (hr : s.mph = MCPh.returned) :
    s.value = v0 + 100 := by
  have hi := cInv_steps h (cInv_init 50 v0)
  rcases hi.hret hr with ⟨h1, h2, h3⟩
  have hv := hi.hval
  rw [h1, h2, h3, hr] at hv
  simp at hv
  omega

theorem c1_witness : ∃ tr s, CSteps 50 (cInit 0) tr s ∧ s.mph = MCPh.returned ∧
    s.value = 0 + 100 := by
  obtain ⟨tr, s, h1, h2, _⟩ := cExec
  exact ⟨tr, s, h1, h2, c1_counter_sum 0 tr s h1 h2⟩

/-- C2: the increment operation acquires the lock, increments the guarded
integer by exactly 1 and releases, and an actor that performs `n`
increments performs exactly `n` such separate acquire/increment/release
critical sections: its projection of any complete trace is `n` consecutive
`acq/incE/rel` blocks.  Modelled from the spec because the body of `incr`
is a TODO stub in the source. -/
theorem c2_incr_critical_sections (n : Nat) (v0 : Int) (tr : List CEv) (s : CState)
    (h : CSteps n (cInit v0) tr s) (hr : s.mph = MCPh.returned) :
    (∀ a, actorEvs a tr = cBlocks a n)
    ∧ (∀ (u u' : CState) (e : CEv) (a : Bool), CStep n u e u' →
        (e = CEv.incE a → u'.value = u.value + 1)
        ∧ (e = CEv.acq a ∨ e = CEv.rel a → u'.value = u.value)) := by
  have hi := cInv_steps h (cInv_init n v0)
  rcases hi.hret hr with ⟨h1, h2, h3⟩
  constructor
  · intro a
    have hp := cProj h a
    cases a with
    | true =>
        simp only [cPfx, cPfxW, cInit, h3, adone, h2] at hp
        simpa using hp
    | false =>
        simp only [cPfx, cPfxM, cInit, hr, adone, h1] at hp
        simpa using hp
  · intro u u' e a hst
    constructor
    · intro he; cases hst <;> simp_all
    · intro he; cases hst <;> simp_all

theorem c2_witness : ∃ tr s, CSteps 50 (cInit 0) tr s ∧ s.mph = MCPh.returned ∧
    actorEvs true tr = cBlocks true 50 ∧ actorEvs false tr = cBlocks false 50 := by
  obtain ⟨tr, s, h1, h2, _⟩ := cExec
  have h := c2_incr_critical_sections 50 0 tr s h1 h2
  exact ⟨tr, s, h1, h2, h.1 true, h.1 false⟩

/-! ## The `read_write` function

Embedded from the source (`solution.rs`, `fn read_write`): a shared
integer `Arc::new(Mutex::new(0))`, ten spawned reader threads each doing
`for _j in 0..20 { let r = reader_lock.lock().unwrap(); println!("Read value as {}", *r); }`
(the guard `r` is dropped at the end of each loop body), the calling
context doing
`for _j in 0..20 { let mut val = lock.lock().unwrap(); *val += 1; println!("Incremented value by 1 to {}", *val); }`,
and then `for handle in handles { handle.join().unwrap(); }`.

The guarding primitive is `std::sync::Mutex`: one holder at a time,
acquisition only when free.  The model is parameterized by the number of
readers `R`, the reader iteration count `K` and the writer iteration
count `W`; the source fixes `R = 10`, `K = 20`, `W = 20`. -/

/-- Thread identifiers of `read_write`: the calling context and the `R`
spawned reader threads. -/
inductive Tid (R : Nat)
  | main
  | reader (i : Fin R)
deriving DecidableEq

/-- Position of a reader thread inside one loop iteration: before
`lock()`, holding the guard before the `println!`, or after the
`println!` with the guard still held (dropped at the end of the body). -/
inductive RPhase
  | ready
  | locked
  | obsd
deriving DecidableEq

/-- Position of the calling context: the three positions of one writer
loop iteration, or joining the readers with indices `< j` already
joined. -/
inductive MPhase
  | ready
  | locked
  | incd
  | joining (j : Nat)
deriving DecidableEq

/-- State of `read_write`: the guarded integer, the mutex holder, and the
loop position of every thread. -/
structure RwState (R : Nat) where
  value : Int
  holder : Option (Tid R)
  riter : Fin R → Nat
  rphase : Fin R → RPhase
  witer : Nat
  mphase : MPhase

/-- Events of `read_write`.  `rObs i v` is the `println!("Read value as {}", ...)`
of reader `i` observing `v`; `wInc v` is the increment together with its
`println!("Incremented value by 1 to {}", ...)` printing the new value `v`. -/
inductive RwEv (R : Nat)
  | rAcq (i : Fin R)
  | rObs (i : Fin R) (v : Int)
  | rRel (i : Fin R)
  | wAcq
  | wInc (v : Int)
  | wRel
  | startJoin
  | joined (j : Nat)
deriving DecidableEq

/-- Initial state of `read_write`: value 0, lock free, all loops at the
start. -/
def rwInit (R : Nat) : RwState R :=
  { value := 0, holder := none, riter := fun _ => 0, rphase := fun _ => RPhase.ready
    witer := 0, mphase := MPhase.ready }

/-- Labelled interleaving step of `read_write`.  Readers acquire the
mutex, observe and print the guarded value, and release; the calling
context acquires, increments by 1 and prints, and releases; after its `W`
iterations it joins the readers one by one in index order, which requires
the joined reader to have finished its `K` iterations. -/
inductive RwStep (R K W : Nat) : RwState R → RwEv R → RwState R → Prop
  | rAcq (s : RwState R) (i : Fin R) (hph : s.rphase i = RPhase.ready) (hit : s.riter i < K)
      (hfree : s.holder = none) :
      RwStep R K W s (RwEv.rAcq i)
        { s with holder := some (Tid.reader i)
                 rphase := Function.update s.rphase i RPhase.locked }
  | rObs (s : RwState R) (i : Fin R) (hph : s.rphase i = RPhase.locked) :
      RwStep R K W s (RwEv.rObs i s.value)
        { s with rphase := Function.update s.rphase i RPhase.obsd }
  | rRel (s : RwState R) (i : Fin R) (hph : s.rphase i = RPhase.obsd) :
      RwStep R K W s (RwEv.rRel i)
        { s with holder := none
                 rphase := Function.update s.rphase i RPhase.ready
                 riter := Function.update s.riter i (s.riter i + 1) }
  | wAcq (s : RwState R) (hph : s.mphase = MPhase.ready) (hit : s.witer < W)
      (hfree : s.holder = none) :
      RwStep R K W s RwEv.wAcq { s with holder := some Tid.main, mphase := MPhase.locked }
  | wInc (s : RwState R) (hph : s.mphase = MPhase.locked) :
      RwStep R K W s (RwEv.wInc (s.value + 1))
        { s with value := s.value + 1, mphase := MPhase.incd }
  | wRel (s : RwState R) (hph : s.mphase = MPhase.incd) :
      RwStep R K W s RwEv.wRel
        { s with holder := none, mphase := MPhase.ready, witer := s.witer + 1 }
  | startJoin (s : RwState R) (hph : s.mphase = MPhase.ready) (hw : s.witer = W) :
      RwStep R K W s RwEv.startJoin { s with mphase := MPhase.joining 0 }
  | joined (s : RwState R) (j : Nat) (hph : s.mphase = MPhase.joining j) (hj : j < R)
      (hfin : s.riter ⟨j, hj⟩ = K) (hfp : s.rphase ⟨j, hj⟩ = RPhase.ready) :
      RwStep R K W s (RwEv.joined j) { s with mphase := MPhase.joining (j + 1) }

/-- Finite executions of `read_write`, recording the trace of events. -/
inductive RwSteps (R K W : Nat) : RwState R → List (RwEv R) → RwState R → Prop
  | refl (s : RwState R) : RwSteps R K W s [] s
  | step {s u s' : RwState R} {e : RwEv R} {tr : List (RwEv R)} :
      RwStep R K W s e u → RwSteps R K W u tr s' → RwSteps R K W s (e :: tr) s'

/-- Reachability from the initial state of `read_write`. -/
def RwReach (R K W : Nat) (s : RwState R) : Prop :=
  ∃ tr, RwSteps R K W (rwInit R) tr s

/-- Inductive invariant of `read_write`: the guarded value equals the
number of applied increments; loop counters are bounded; the mutex holder
field agrees with the thread phases (at most one thread inside a critical
section); and while joining, the writer loop is finished and all readers
with smaller index have finished. -/
structure RwInv (R K W : Nat) (s : RwState R) : Prop where
  hval : s.value = (s.witer : Int) + (if s.mphase = MPhase.incd then 1 else 0)
  hwle : s.witer ≤ W
  hwlt : s.mphase = MPhase.locked ∨ s.mphase = MPhase.incd → s.witer < W
  hrle : ∀ i, s.riter i ≤ K
  hrlt : ∀ i, s.rphase i ≠ RPhase.ready → s.riter i < K
  hrh : ∀ i, s.rphase i ≠ RPhase.ready → s.holder = some (Tid.reader i)
  hmh : s.mphase = MPhase.locked ∨ s.mphase = MPhase.incd → s.holder = some Tid.main
  hhr : ∀ i, s.holder = some (Tid.reader i) → s.rphase i ≠ RPhase.ready
  hhm : s.holder = some Tid.main → s.mphase = MPhase.locked ∨ s.mphase = MPhase.incd
  hjoin : ∀ j, s.mphase = MPhase.joining j →
      j ≤ R ∧ s.witer = W ∧ ∀ i : Fin R, i.val < j → s.riter i = K ∧ s.rphase i = RPhase.ready

theorem rwInv_init (R K W : Nat) : RwInv R K W (rwInit R) := by
  refine ⟨?_, ?_, ?_, ?_, ?_, ?_, ?_, ?_, ?_, ?_⟩ <;> simp [rwInit]

theorem rwInv_step {R K W : Nat} {s s' : RwState R} {e : RwEv R}
    (h : RwStep R K W s e s') (hi : RwInv R K W s) : RwInv R K W s' := by
  obtain ⟨hval, hwle, hwlt, hrle, hrlt, hrh, hmh, hhr, hhm, hjoin⟩ := hi
  cases h with
  | rAcq i hph hit hfree =>
      refine ⟨hval, hwle, hwlt, hrle, ?_, ?_, ?_, ?_, ?_, ?_⟩
      · intro j hj
        by_cases hij : j = i
        · subst hij; exact hit
        · simp only [Function.update_noteq hij] at hj; exact hrlt j hj
      · intro j hj
        by_cases hij : j = i
        · subst hij; rfl
        · simp only [Function.update_noteq hij] at hj
          have h2 := hrh j hj; rw [hfree] at h2; simp at h2
      · intro hm; have h2 := hmh hm; rw [hfree] at h2; simp at h2
      · intro j hj
        simp only [Option.some.injEq, Tid.reader.injEq] at hj
        subst hj
        simp only [Function.update_same]; simp
      · intro hm; simp at hm
      · intro j hm
        obtain ⟨ha, hb, hc⟩ := hjoin j hm
        refine ⟨ha, hb, fun i' hi' => ⟨(hc i' hi').1, ?_⟩⟩
        by_cases hii : i' = i
        · exact absurd (hc i' hi').1 (by rw [hii]; exact Nat.ne_of_lt hit)
        · simp only [Function.update_noteq hii]; exact (hc i' hi').2
  | rObs i hph =>
      refine ⟨hval, hwle, hwlt, hrle, ?_, ?_, hmh, ?_, hhm, ?_⟩
      · intro j hj
        by_cases hij : j = i
        · subst hij; exact hrlt j (by rw [hph]; simp)
        · simp only [Function.update_noteq hij] at hj; exact hrlt j hj
      · intro j hj
        by_cases hij : j = i
        · subst hij; exact hrh j (by rw [hph]; simp)
        · simp only [Function.update_noteq hij] at hj; exact hrh j hj
      · intro j hj
        have h2 := hhr j hj
        by_cases hij : j = i
        · subst hij; simp only [Function.update_same]; simp
        · simp only [Function.update_noteq hij]; exact h2
      · intro j hm
        obtain ⟨ha, hb, hc⟩ := hjoin j hm
        refine ⟨ha, hb, fun i' hi' => ⟨(hc i' hi').1, ?_⟩⟩
        by_cases hii : i' = i
        · have h2 := (hc i' hi').2; rw [hii, hph] at h2; simp at h2
        · simp only [Function.update_noteq hii]; exact (hc i' hi').2
  | rRel i hph =>
      refine ⟨hval, hwle, hwlt, ?_, ?_, ?_, ?_, ?_, ?_, ?_⟩
      · intro j
        by_cases hij : j = i
        · subst hij; simp only [Function.update_same]
          have := hrlt j (by rw [hph]; simp); omega
        · simp only [Function.update_noteq hij]; exact hrle j
      · intro j hj
        by_cases hij : j = i
        · subst hij; simp only [Function.update_same] at hj; simp at hj
        · simp only [Function.update_noteq hij] at hj
          simp only [Function.update_noteq hij]
          exact hrlt j hj
      · intro j hj
        by_cases hij : j = i
        · subst hij; simp only [Function.update_same] at hj; simp at hj
        · simp only [Function.update_noteq hij] at hj
          have h2 := hrh j hj
          have h3 := hrh i (by rw [hph]; simp)
          rw [h2] at h3; simp at h3
          exact absurd h3 hij
      · intro hm
        have h2 := hmh hm
        have h3 := hrh i (by rw [hph]; simp)
        rw [h2] at h3; simp at h3
      · intro j hj; simp at hj
      · intro hm; simp at hm
      · intro j hm
        obtain ⟨ha, hb, hc⟩ := hjoin j hm
        refine ⟨ha, hb, fun i' hi' => ?_⟩
        by_cases hii : i' = i
        · have h2 := (hc i' hi').2; rw [hii, hph] at h2; simp at h2
        · exact ⟨by simp only [Function.update_noteq hii]; exact (hc i' hi').1,
            by simp only [Function.update_noteq hii]; exact (hc i' hi').2⟩
  | wAcq hph hit hfree =>
      refine ⟨?_, hwle, fun _ => hit, hrle, hrlt, ?_, fun _ => rfl, ?_, fun _ => Or.inl rfl, ?_⟩
      · have h0 := hval; rw [hph] at h0; simpa using h0
      · intro j hj; have h2 := hrh j hj; rw [hfree] at h2; simp at h2
      · intro j hj; simp at hj
      · intro j hm; simp at hm
  | wInc hph =>
      refine ⟨?_, hwle, fun _ => hwlt (Or.inl hph), hrle, hrlt, hrh,
        fun _ => hmh (Or.inl hph), hhr, fun _ => Or.inr rfl, ?_⟩
      · have h0 := hval; rw [hph] at h0; simp at h0 ⊢; omega
      · intro j hm; simp at hm
  | wRel hph =>
      refine ⟨?_, ?_, ?_, hrle, hrlt, ?_, ?_, ?_, ?_, ?_⟩
      · have h0 := hval; rw [hph] at h0; simp at h0 ⊢; omega
      · have := hwlt (Or.inr hph); show s.witer + 1 ≤ W; omega
      · rintro (h | h) <;> simp at h
      · intro j hj
        have h2 := hrh j hj
        have h3 := hmh (Or.inr hph)
        rw [h2] at h3; simp at h3
      · rintro (h | h) <;> simp at h
      · intro j hj; simp at hj
      · intro hm; simp at hm
      · intro j hm; simp at hm
  | startJoin hph hw =>
      refine ⟨?_, hwle, ?_, hrle, hrlt, hrh, ?_, hhr, ?_, ?_⟩
      · have h0 := hval; rw [hph] at h0; simpa using h0
      · rintro (h | h) <;> simp at h
      · rintro (h | h) <;> simp at h
      · intro hm; rcases hhm hm with h | h <;> (rw [hph] at h; simp at h)
      · intro j hm
        simp only [MPhase.joining.injEq] at hm
        subst hm
        exact ⟨Nat.zero_le R, hw, fun i' hi' => absurd hi' (by omega)⟩
  | joined j hph hj hfin hfp =>
      refine ⟨?_, hwle, ?_, hrle, hrlt, hrh, ?_, hhr, ?_, ?_⟩
      · have h0 := hval; rw [hph] at h0; simpa using h0
      · rintro (h | h) <;> simp at h
      · rintro (h | h) <;> simp at h
      · intro hm; rcases hhm hm with h | h <;> (rw [hph] at h; simp at h)
      · intro j' hm
        simp only [MPhase.joining.injEq] at hm
        subst hm
        obtain ⟨ha, hb, hc⟩ := hjoin j hph
        refine ⟨by omega, hb, ?_⟩
        intro i' hi'
        by_cases hij : i'.val < j
        · exact hc i' hij
        · have hveq : i'.val = j := by omega
          have hieq : i' = ⟨j, hj⟩ := Fin.ext (by simpa using hveq)
          exact hieq ▸ ⟨hfin, hfp⟩

theorem rwInv_steps {R K W : Nat} {s s' : RwState R} {tr : List (RwEv R)}
    (h : RwSteps R K W s tr s') (hi : RwInv R K W s) : RwInv R K W s' := by
  induction h with
  | refl => exact hi
  | step hst _ ih => exact ih (rwInv_step hst hi)

theorem rwInv_reach {R K W : Nat} {s : RwState R} (h : RwReach R K W s) : RwInv R K W s := by
  obtain ⟨tr, htr⟩ := h
  exact rwInv_steps htr (rwInv_init R K W)

/-! ### Counting events along `read_write` executions -/

/-- Completed reader iterations plus the one whose lock is currently held. -/
def rtot {R : Nat} (s : RwState R) (i : Fin R) : Nat :=
  s.riter i + (if s.rphase i = RPhase.ready then 0 else 1)

/-- Completed reader iterations plus the one already printed but not yet
released. -/
def otot {R : Nat} (s : RwState R) (i : Fin R) : Nat :=
  s.riter i + (if s.rphase i = RPhase.obsd then 1 else 0)

/-- Applied increments: completed writer iterations plus the one already
applied inside the current critical section. -/
def wtot {R : Nat} (s : RwState R) : Nat :=
  s.witer + (if s.mphase = MPhase.incd then 1 else 0)

def ototSum {R : Nat} (s : RwState R) : Nat := ∑ i, otot s i

def isAcqOf {R : Nat} (i : Fin R) : RwEv R → Bool := fun e =>
  match e with
  | RwEv.rAcq j => decide (j = i)
  | _ => false

def isObsOf {R : Nat} (i : Fin R) : RwEv R → Bool := fun e =>
  match e with
  | RwEv.rObs j _ => decide (j = i)
  | _ => false

def isRelOf {R : Nat} (i : Fin R) : RwEv R → Bool := fun e =>
  match e with
  | RwEv.rRel j => decide (j = i)
  | _ => false

def isObsE {R : Nat} : RwEv R → Bool := fun e =>
  match e with
  | RwEv.rObs _ _ => true
  | _ => false

def isIncE {R : Nat} : RwEv R → Bool := fun e =>
  match e with
  | RwEv.wInc _ => true
  | _ => false

theorem rtot_step {R K W : Nat} {s u : RwState R} {e : RwEv R}
    (h : RwStep R K W s e u) (i : Fin R) :
    rtot u i = rtot s i + (if isAcqOf i e then 1 else 0) := by
  cases h with
  | rAcq j hph hit hfree =>
      by_cases hij : j = i
      · subst hij; simp [rtot, isAcqOf, hph, Function.update_same]
      · simp [rtot, isAcqOf, hij, Function.update_noteq (Ne.symm hij)]
  | rObs j hph =>
      by_cases hij : j = i
      · subst hij; simp [rtot, isAcqOf, hph, Function.update_same]
      · simp [rtot, isAcqOf, Function.update_noteq (Ne.symm hij)]
  | rRel j hph =>
      by_cases hij : j = i
      · subst hij; simp [rtot, isAcqOf, hph, Function.update_same]
      · simp [rtot, isAcqOf, Function.update_noteq (Ne.symm hij)]
  | wAcq hph hit hfree => simp [rtot, isAcqOf]
  | wInc hph => simp [rtot, isAcqOf]
  | wRel hph => simp [rtot, isAcqOf]
  | startJoin hph hw => simp [rtot, isAcqOf]
  | joined j hph hj hfin hfp => simp [rtot, isAcqOf]

theorem otot_step {R K W : Nat} {s u : RwState R} {e : RwEv R}
    (h : RwStep R K W s e u) (i : Fin R) :
    otot u i = otot s i + (if isObsOf i e then 1 else 0) := by
  cases h with
  | rAcq j hph hit hfree =>
      by_cases hij : j = i
      · subst hij; simp [otot, isObsOf, hph, Function.update_same]
      · simp [otot, isObsOf, Function.update_noteq (Ne.symm hij)]
  | rObs j hph =>
      by_cases hij : j = i
      · subst hij; simp [otot, isObsOf, hph, Function.update_same]
      · simp [otot, isObsOf, hij, Function.update_noteq (Ne.symm hij)]
  | rRel j hph =>
      by_cases hij : j = i
      · subst hij; simp [otot, isObsOf, hph, Function.update_same]
      · simp [otot, isObsOf, Function.update_noteq (Ne.symm hij)]
  | wAcq hph hit hfree => simp [otot, isObsOf]
  | wInc hph => simp [otot, isObsOf]
  | wRel hph => simp [otot, isObsOf]
  | startJoin hph hw => simp [otot, isObsOf]
  | joined j hph hj hfin hfp => simp [otot, isObsOf]

theorem riter_step {R K W : Nat} {s u : RwState R} {e : RwEv R}
    (h : RwStep R K W s e u) (i : Fin R) :
    u.riter i = s.riter i + (if isRelOf i e then 1 else 0) := by
  cases h with
  | rAcq j hph hit hfree => simp [isRelOf]
  | rObs j hph => simp [isRelOf]
  | rRel j hph =>
      by_cases hij : j = i
      · subst hij; simp [isRelOf, Function.update_same]
      · simp [isRelOf, hij, Function.update_noteq (Ne.symm hij)]
  | wAcq hph hit hfree => simp [isRelOf]
  | wInc hph => simp [isRelOf]
  | wRel hph => simp [isRelOf]
  | startJoin hph hw => simp [isRelOf]
  | joined j hph hj hfin hfp => simp [isRelOf]

theorem wtot_step {R K W : Nat} {s u : RwState R} {e : RwEv R}
    (h : RwStep R K W s e u) :
    wtot u = wtot s + (if isIncE e then 1 else 0) := by
  cases h with
  | rAcq j hph hit hfree => simp [wtot, isIncE]
  | rObs j hph => simp [wtot, isIncE]
  | rRel j hph => simp [wtot, isIncE]
  | wAcq hph hit hfree => simp [wtot, isIncE, hph]
  | wInc hph => simp [wtot, isIncE, hph]
  | wRel hph => simp [wtot, isIncE, hph]
  | startJoin hph hw => simp [wtot, isIncE, hph]
  | joined j hph hj hfin hfp => simp [wtot, isIncE, hph]

theorem count_acq {R K W : Nat} {s s' : RwState R} {tr : List (RwEv R)}
    (h : RwSteps R K W s tr s') (i : Fin R) :
    rtot s i + tr.countP (isAcqOf i) = rtot s' i := by
  induction h with
  | refl => simp
  | step hst _ ih =>
      rw [List.countP_cons]
      have h2 := rtot_step hst i
      omega

theorem count_obs {R K W : Nat} {s s' : RwState R} {tr : List (RwEv R)}
    (h : RwSteps R K W s tr s') (i : Fin R) :
    otot s i + tr.countP (isObsOf i) = otot s' i := by
  induction h with
  | refl => simp
  | step hst _ ih =>
      rw [List.countP_cons]
      have h2 := otot_step hst i
      omega

theorem count_rel {R K W : Nat} {s s' : RwState R} {tr : List (RwEv R)}
    (h : RwSteps R K W s tr s') (i : Fin R) :
    s.riter i + tr.countP (isRelOf i) = s'.riter i := by
  induction h with
  | refl => simp
  | step hst _ ih =>
      rw [List.countP_cons]
      have h2 := riter_step hst i
      omega

theorem count_inc {R K W : Nat} {s s' : RwState R} {tr : List (RwEv R)}
    (h : RwSteps R K W s tr s') :
    wtot s + tr.countP isIncE = wtot s' := by
  induction h with
  | refl => simp
  | step hst _ ih =>
      rw [List.countP_cons]
      have h2 := wtot_step hst
      omega

theorem fin_sum_succ_at {R : Nat} (f g : Fin R → Nat) (i : Fin R) (hi : g i = f i + 1)
    (ho : ∀ j, j ≠ i → g j = f j) : (∑ j, g j) = (∑ j, f j) + 1 := by
  have h1 := Finset.add_sum_erase Finset.univ g (Finset.mem_univ i)
  have h2 := Finset.add_sum_erase Finset.univ f (Finset.mem_univ i)
  have h3 : ∑ j in Finset.univ.erase i, g j = ∑ j in Finset.univ.erase i, f j :=
    Finset.sum_congr rfl (fun j hjm => ho j (Finset.ne_of_mem_erase hjm))
  omega

theorem fin_sum_lt_at {R : Nat} (f g : Fin R → Nat) (i : Fin R) (hi : g i < f i)
    (ho : ∀ j, j ≠ i → g j = f j) : (∑ j, g j) < ∑ j, f j := by
  have h1 := Finset.add_sum_erase Finset.univ g (Finset.mem_univ i)
  have h2 := Finset.add_sum_erase Finset.univ f (Finset.mem_univ i)
  have h3 : ∑ j in Finset.univ.erase i, g j = ∑ j in Finset.univ.erase i, f j :=
    Finset.sum_congr rfl (fun j hjm => ho j (Finset.ne_of_mem_erase hjm))
  omega

theorem ototSum_step {R K W : Nat} {s u : RwState R} {e : RwEv R}
    (h : RwStep R K W s e u) :
    ototSum u = ototSum s + (if isObsE e then 1 else 0) := by
  have hstep := otot_step h
  cases h with
  | rObs j hph =>
      have h1 : otot { s with rphase := Function.update s.rphase j RPhase.obsd } j
          = otot s j + 1 := by
        have h2 := hstep j; simpa [isObsOf] using h2
      have h2 : ∀ j' : Fin R, j' ≠ j →
          otot { s with rphase := Function.update s.rphase j RPhase.obsd } j' = otot s j' := by
        intro j' hj'
        have h3 := hstep j'; simpa [isObsOf, Ne.symm hj'] using h3
      have h4 := fin_sum_succ_at (otot s) _ j h1 h2
      simpa [ototSum, isObsE] using h4
  | rAcq j hph hit hfree =>
      simp only [ototSum, isObsE]
      rw [Finset.sum_congr rfl (fun j' _ => by
        have h2 := hstep j'; simp [isObsOf] at h2; exact h2)]
      simp
  | rRel j hph =>
      simp only [ototSum, isObsE]
      rw [Finset.sum_congr rfl (fun j' _ => by
        have h2 := hstep j'; simp [isObsOf] at h2; exact h2)]
      simp
  | wAcq hph hit hfree =>
      simp only [ototSum, isObsE]
      rw [Finset.sum_congr rfl (fun j' _ => by
        have h2 := hstep j'; simp [isObsOf] at h2; exact h2)]
      simp
  | wInc hph =>
      simp only [ototSum, isObsE]
      rw [Finset.sum_congr rfl (fun j' _ => by
        have h2 := hstep j'; simp [isObsOf] at h2; exact h2)]
      simp
  | wRel hph =>
      simp only [ototSum, isObsE]
      rw [Finset.sum_congr rfl (fun j' _ => by
        have h2 := hstep j'; simp [isObsOf] at h2; exact h2)]
      simp
  | startJoin hph hw =>
      simp only [ototSum, isObsE]
      rw [Finset.sum_congr rfl (fun j' _ => by
        have h2 := hstep j'; simp [isObsOf] at h2; exact h2)]
      simp
  | joined j hph hj hfin hfp =>
      simp only [ototSum, isObsE]
      rw [Finset.sum_congr rfl (fun j' _ => by
        have h2 := hstep j'; simp [isObsOf] at h2; exact h2)]
      simp

theorem count_obs_tot {R K W : Nat} {s s' : RwState R} {tr : List (RwEv R)}
    (h : RwSteps R K W s tr s') :
    ototSum s + tr.countP isObsE = ototSum s' := by
  induction h with
  | refl => simp
  | step hst _ ih =>
      rw [List.countP_cons]
      have h2 := ototSum_step hst
      omega

/-! ### Output lines of `read_write`

`readMsg` and `writeMsg` are the lines produced by the two `println!`
calls of the source, with the `{}` placeholder substituted. -/

def readMsg (v : Int) : String := "Read value as " ++ toString v

def writeMsg (v : Int) : String := "Incremented value by 1 to " ++ toString v

/-- The stdout line emitted by an event: each observation prints one
`readMsg` line, each increment prints one `writeMsg` line, nothing else
prints. -/
def lineOf {R : Nat} : RwEv R → Option String := fun e =>
  match e with
  | RwEv.rObs _ v => some (readMsg v)
  | RwEv.wInc v => some (writeMsg v)
  | _ => none

/-- The full stdout of an execution with trace `tr`, in order. -/
def outputs {R : Nat} (tr : List (RwEv R)) : List String := tr.filterMap lineOf

/-- The lines emitted by the writer loop only. -/
def wlineOf {R : Nat} : RwEv R → Option String := fun e =>
  match e with
  | RwEv.wInc v => some (writeMsg v)
  | _ => none

/-- The guarded values recorded by the increments of a trace, in order. -/
def writesOf {R : Nat} (tr : List (RwEv R)) : List Int :=
  tr.filterMap (fun e => match e with | RwEv.wInc v => some v | _ => none)

/-- The list `[a, a+1, ..., a+c-1]`. -/
def natSeq (a : Nat) : Nat → List Nat
  | 0 => []
  | c + 1 => a :: natSeq (a + 1) c

theorem outputs_length {R : Nat} (tr : List (RwEv R)) :
    (outputs tr).length = tr.countP isObsE + tr.countP isIncE := by
  induction tr with
  | nil => rfl
  | cons e tr ih =>
      simp only [outputs] at ih
      cases e <;>
        simp [outputs, List.countP_cons, isObsE, isIncE, lineOf] <;>
        omega

theorem wline_map {R : Nat} (tr : List (RwEv R)) :
    tr.filterMap wlineOf = (writesOf tr).map writeMsg := by
  induction tr with
  | nil => rfl
  | cons e tr ih => cases e <;> simp [writesOf, wlineOf] at ih ⊢ <;> exact ih

/-- Every value observed by a reader along any execution from a state
satisfying the invariant lies between 0 and the writer bound `W`. -/
theorem obs_range {R K W : Nat} {s s' : RwState R} {tr : List (RwEv R)}
    (h : RwSteps R K W s tr s') (hi : RwInv R K W s) :
    ∀ i v, RwEv.rObs i v ∈ tr → 0 ≤ v ∧ v ≤ (W : Int) := by
  induction h with
  | refl => intro i v hv; simp at hv
  | step hst hrest ih =>
      intro i v hv
      have hiu := rwInv_step hst hi
      rcases List.mem_cons.mp hv with hv | hv
      · cases hst with
        | rObs j hph =>
            simp only [RwEv.rObs.injEq] at hv
            obtain ⟨h1, h2⟩ := hv
            subst h2
            have h0 := hi.hval
            have h1le := hi.hwle
            have h2lt := hi.hwlt
            constructor
            · rw [h0]; split_ifs <;> omega
            · rw [h0]; split_ifs with hcc
              · have := h2lt (Or.inr hcc); omega
              · omega
        | rAcq j hph hit hfree => simp at hv
        | rRel j hph => simp at hv
        | wAcq hph hit hfree => simp at hv
        | wInc hph => simp at hv
        | wRel hph => simp at hv
        | startJoin hph hw => simp at hv
        | joined j hph hj hfin hfp => simp at hv
      · exact ih hiu i v hv

/-- Along any execution from a state satisfying the invariant, the values
recorded by the writer's increments are the consecutive integers
continuing from the increments already applied. -/
theorem writesOf_eq {R K W : Nat} {s s' : RwState R} {tr : List (RwEv R)}
    (h : RwSteps R K W s tr s') (hi : RwInv R K W s) :
    writesOf tr = (natSeq (wtot s) (wtot s' - wtot s)).map (fun (k : Nat) => ((k : Int) + 1)) := by
  induction h with
  | refl => simp [writesOf, Nat.sub_self, natSeq]
  | step hst hrest ih =>
      rename_i s u s' e tr
      have hiu := rwInv_step hst hi
      have IH := ih hiu
      have hmono : wtot u ≤ wtot s' := by have := count_inc hrest; omega
      cases hst with
      | wInc hph =>
          have hws : wtot s = s.witer := by simp [wtot, hph]
          have hvv : s.value = (s.witer : Int) := by
            have h0 := hi.hval; rw [hph] at h0; simpa using h0
          have hwu : wtot { s with value := s.value + 1, mphase := MPhase.incd }
              = wtot s + 1 := by simp [wtot, hph]
          rw [hwu] at IH hmono
          simp only [writesOf, List.filterMap_cons] at IH ⊢
          rw [show wtot s' - wtot s = (wtot s' - (wtot s + 1)) + 1 from by omega]
          simp only [natSeq, List.map_cons]
          refine List.cons_eq_cons.mpr ⟨?_, ?_⟩
          · rw [hvv, hws]
          · exact IH
      | rAcq j hph hit hfree =>
          simp only [writesOf, List.filterMap_cons] at IH ⊢
          exact IH
      | rObs j hph =>
          simp only [writesOf, List.filterMap_cons] at IH ⊢
          exact IH
      | rRel j hph =>
          simp only [writesOf, List.filterMap_cons] at IH ⊢
          exact IH
      | wAcq hph hit hfree =>
          have hwu : wtot { s with holder := some Tid.main, mphase := MPhase.locked }
              = wtot s := by simp [wtot, hph]
          rw [hwu] at IH
          simp only [writesOf, List.filterMap_cons] at IH ⊢
          exact IH
      | wRel hph =>
          have hwu : wtot { s with holder := none, mphase := MPhase.ready, witer := s.witer + 1 }
              = wtot s := by simp [wtot, hph]
          rw [hwu] at IH
          simp only [writesOf, List.filterMap_cons] at IH ⊢
          exact IH
      | startJoin hph hw =>
          have hwu : wtot { s with mphase := MPhase.joining 0 } = wtot s := by
            simp [wtot, hph]
          rw [hwu] at IH
          simp only [writesOf, List.filterMap_cons] at IH ⊢
          exact IH
      | joined j hph hj hfin hfp =>
          have hwu : wtot { s with mphase := MPhase.joining (j + 1) } = wtot s := by
            simp [wtot, hph]
          rw [hwu] at IH
          simp only [writesOf, List.filterMap_cons] at IH ⊢
          exact IH

/-! ### Termination measure, progress, and an executable interpreter for
`read_write` -/

/-- Micro-steps remaining for reader `i`. -/
def rrem {R : Nat} (K : Nat) (s : RwState R) (i : Fin R) : Nat :=
  match s.rphase i with
  | RPhase.ready => 3 * (K - s.riter i)
  | RPhase.locked => 3 * (K - s.riter i - 1) + 2
  | RPhase.obsd => 3 * (K - s.riter i - 1) + 1

/-- Micro-steps remaining for the calling context (writer loop, the loop
exit, and the `R` joins). -/
def mrem {R : Nat} (W : Nat) (s : RwState R) : Nat :=
  match s.mphase with
  | MPhase.ready => 3 * (W - s.witer) + R + 2
  | MPhase.locked => 3 * (W - s.witer - 1) + R + 4
  | MPhase.incd => 3 * (W - s.witer - 1) + R + 3
  | MPhase.joining j => (R - j) + 1

def rwMeasure {R : Nat} (K W : Nat) (s : RwState R) : Nat :=
  (∑ i, rrem K s i) + mrem W s

theorem rwStep_measure {R K W : Nat} {s s' : RwState R} {e : RwEv R}
    (h : RwStep R K W s e s') : rwMeasure K W s' < rwMeasure K W s := by
  cases h with
  | rAcq i hph hit hfree =>
      have hsum : (∑ j, rrem K { s with holder := some (Tid.reader i), rphase := Function.update s.rphase i RPhase.locked } j) < ∑ j, rrem K s j := by
        apply fin_sum_lt_at _ _ i
        · simp only [rrem, hph, Function.update_same]
          omega
        · intro j hj
          simp only [rrem, Function.update_noteq hj]
      have hm : mrem W { s with holder := some (Tid.reader i), rphase := Function.update s.rphase i RPhase.locked } = mrem W s := by
        simp only [mrem]
      simp only [rwMeasure, hm]
      omega
  | rObs i hph =>
      have hsum : (∑ j, rrem K { s with rphase := Function.update s.rphase i RPhase.obsd } j) < ∑ j, rrem K s j := by
        apply fin_sum_lt_at _ _ i
        · simp only [rrem, hph, Function.update_same]
          omega
        · intro j hj
          simp only [rrem, Function.update_noteq hj]
      have hm : mrem W { s with rphase := Function.update s.rphase i RPhase.obsd }
          = mrem W s := by simp only [mrem]
      simp only [rwMeasure, hm]
      omega
  | rRel i hph =>
      have hsum : (∑ j, rrem K { s with holder := none, rphase := Function.update s.rphase i RPhase.ready, riter := Function.update s.riter i (s.riter i + 1) } j) < ∑ j, rrem K s j := by
        apply fin_sum_lt_at _ _ i
        · simp only [rrem, hph, Function.update_same]
          omega
        · intro j hj
          simp only [rrem, Function.update_noteq hj]
      have hm : mrem W { s with holder := none, rphase := Function.update s.rphase i RPhase.ready, riter := Function.update s.riter i (s.riter i + 1) } = mrem W s := by
        simp only [mrem]
      simp only [rwMeasure, hm]
      omega
  | wAcq hph hit hfree =>
      have hsum : (∑ j, rrem K { s with holder := some Tid.main, mphase := MPhase.locked } j) = ∑ j, rrem K s j :=
        Finset.sum_congr rfl (fun j _ => by simp only [rrem])
      simp only [rwMeasure, hsum, mrem, hph]
      omega
  | wInc hph =>
      have hsum : (∑ j, rrem K { s with value := s.value + 1, mphase := MPhase.incd } j) = ∑ j, rrem K s j :=
        Finset.sum_congr rfl (fun j _ => by simp only [rrem])
      simp only [rwMeasure, hsum, mrem, hph]
      omega
  | wRel hph =>
      have hsum : (∑ j, rrem K { s with holder := none, mphase := MPhase.ready, witer := s.witer + 1 } j) = ∑ j, rrem K s j :=
        Finset.sum_congr rfl (fun j _ => by simp only [rrem])
      simp only [rwMeasure, hsum, mrem, hph]
      omega
  | startJoin hph hw =>
      have hsum : (∑ j, rrem K { s with mphase := MPhase.joining 0 } j) = ∑ j, rrem K s j :=
        Finset.sum_congr rfl (fun j _ => by simp only [rrem])
      simp only [rwMeasure, hsum, mrem, hph]
      omega
  | joined j hph hj hfin hfp =>
      have hsum : (∑ j', rrem K { s with mphase := MPhase.joining (j + 1) } j')
          = ∑ j', rrem K s j' :=
        Finset.sum_congr rfl (fun j' _ => by simp only [rrem])
      simp only [rwMeasure, hsum, mrem, hph]
      omega

theorem rwSteps_len {R K W : Nat} {s s' : RwState R} {tr : List (RwEv R)}
    (h : RwSteps R K W s tr s') : tr.length + rwMeasure K W s' ≤ rwMeasure K W s := by
  induction h with
  | refl => simp
  | step hst _ ih =>
      have := rwStep_measure hst
      simp only [List.length_cons]
      omega

theorem rwMeasure_init (R K W : Nat) :
    rwMeasure K W (rwInit R) = 3 * R * K + 3 * W + R + 2 := by
  have h1 : ∀ i : Fin R, rrem K (rwInit R) i = 3 * K := fun i => by
    simp [rrem, rwInit]
  have hsum : (∑ i : Fin R, rrem K (rwInit R) i) = 3 * R * K := by
    rw [Finset.sum_congr rfl (fun i _ => h1 i)]
    calc (∑ _i : Fin R, 3 * K) = (Finset.univ : Finset (Fin R)).card * (3 * K) := by
          rw [Finset.sum_const, smul_eq_mul]
      _ = R * (3 * K) := by rw [Finset.card_univ, Fintype.card_fin]
      _ = 3 * R * K := by ring
  have hm : mrem W (rwInit R) = 3 * W + R + 2 := by simp [mrem, rwInit]
  simp only [rwMeasure]
  rw [hsum, hm]
  omega

/-- A reachable state of `read_write` that has not yet joined all `R`
readers always has an enabled step: the demo cannot deadlock. -/
theorem rw_progress {R K W : Nat} {s : RwState R} (hi : RwInv R K W s)
    (hne : s.mphase ≠ MPhase.joining R) : ∃ e s', RwStep R K W s e s' := by
  obtain ⟨hval, hwle, hwlt, hrle, hrlt, hrh, hmh, hhr, hhm, hjoin⟩ := hi
  cases hh : s.holder with
  | some t =>
      cases t with
      | reader i =>
          have hri := hhr i hh
          cases hrp : s.rphase i with
          | ready => exact absurd hrp hri
          | locked => exact ⟨_, _, RwStep.rObs s i hrp⟩
          | obsd => exact ⟨_, _, RwStep.rRel s i hrp⟩
      | main =>
          rcases hhm hh with hm | hm
          · exact ⟨_, _, RwStep.wInc s hm⟩
          · exact ⟨_, _, RwStep.wRel s hm⟩
  | none =>
      cases hmp : s.mphase with
      | ready =>
          by_cases hwd : s.witer < W
          · exact ⟨_, _, RwStep.wAcq s hmp hwd hh⟩
          · exact ⟨_, _, RwStep.startJoin s hmp (le_antisymm hwle (not_lt.mp hwd))⟩
      | locked =>
          have h2 := hmh (Or.inl hmp); rw [h2] at hh; simp at hh
      | incd =>
          have h2 := hmh (Or.inr hmp); rw [h2] at hh; simp at hh
      | joining j =>
          obtain ⟨hjle, hjw, hjfin⟩ := hjoin j hmp
          by_cases hjR : j < R
          · set i : Fin R := ⟨j, hjR⟩ with hidef
            have hip : s.rphase i = RPhase.ready := by
              by_contra hc
              have h2 := hrh i hc; rw [h2] at hh; simp at hh
            by_cases hik : s.riter i = K
            · exact ⟨_, _, RwStep.joined s j hmp hjR hik hip⟩
            · have hlt : s.riter i < K := lt_of_le_of_ne (hrle i) hik
              exact ⟨_, _, RwStep.rAcq s i hip hlt hh⟩
          · exact absurd hmp (by
              have : j = R := by omega
              rw [this]
              exact hne)

def rwRunEv (R K W : Nat) (s : RwState R) : RwEv R → Option (RwState R)
  | RwEv.rAcq i =>
      if s.rphase i = RPhase.ready ∧ s.riter i < K ∧ s.holder = none then
        some { s with holder := some (Tid.reader i)
                      rphase := Function.update s.rphase i RPhase.locked }
      else none
  | RwEv.rObs i v =>
      if s.rphase i = RPhase.locked ∧ v = s.value then
        some { s with rphase := Function.update s.rphase i RPhase.obsd }
      else none
  | RwEv.rRel i =>
      if s.rphase i = RPhase.obsd then
        some { s with holder := none
                      rphase := Function.update s.rphase i RPhase.ready
                      riter := Function.update s.riter i (s.riter i + 1) }
      else none
  | RwEv.wAcq =>
      if s.mphase = MPhase.ready ∧ s.witer < W ∧ s.holder = none then
        some { s with holder := some Tid.main, mphase := MPhase.locked }
      else none
  | RwEv.wInc v =>
      if s.mphase = MPhase.locked ∧ v = s.value + 1 then
        some { s with value := s.value + 1, mphase := MPhase.incd }
      else none
  | RwEv.wRel =>
      if s.mphase = MPhase.incd then
        some { s with holder := none, mphase := MPhase.ready, witer := s.witer + 1 }
      else none
  | RwEv.startJoin =>
      if s.mphase = MPhase.ready ∧ s.witer = W then
        some { s with mphase := MPhase.joining 0 }
      else none
  | RwEv.joined j =>
      if hj : j < R then
        if s.mphase = MPhase.joining j ∧ s.riter ⟨j, hj⟩ = K ∧ s.rphase ⟨j, hj⟩ = RPhase.ready then
          some { s with mphase := MPhase.joining (j + 1) }
        else none
      else none

def rwRunTr (R K W : Nat) : RwState R → List (RwEv R) → Option (RwState R)
  | s, [] => some s
  | s, e :: tr =>
      match rwRunEv R K W s e with
      | some u => rwRunTr R K W u tr
      | none => none

theorem rwRunEv_sound {R K W : Nat} {s s' : RwState R} {e : RwEv R}
    (h : rwRunEv R K W s e = some s') : RwStep R K W s e s' := by
  cases e with
  | rAcq i =>
      simp only [rwRunEv] at h
      split_ifs at h with hc
      obtain ⟨h1, h2, h3⟩ := hc
      injection h with h4; subst h4
      exact RwStep.rAcq s i h1 h2 h3
  | rObs i v =>
      simp only [rwRunEv] at h
      split_ifs at h with hc
      obtain ⟨h1, h2⟩ := hc
      subst h2
      injection h with h4; subst h4
      exact RwStep.rObs s i h1
  | rRel i =>
      simp only [rwRunEv] at h
      split_ifs at h with hc
      injection h with h4; subst h4
      exact RwStep.rRel s i hc
  | wAcq =>
      simp only [rwRunEv] at h
      split_ifs at h with hc
      obtain ⟨h1, h2, h3⟩ := hc
      injection h with h4; subst h4
      exact RwStep.wAcq s h1 h2 h3
  | wInc v =>
      simp only [rwRunEv] at h
      split_ifs at h with hc
      obtain ⟨h1, h2⟩ := hc
      subst h2
      injection h with h4; subst h4
      exact RwStep.wInc s h1
  | wRel =>
      simp only [rwRunEv] at h
      split_ifs at h with hc
      injection h with h4; subst h4
      exact RwStep.wRel s hc
  | startJoin =>
      simp only [rwRunEv] at h
      split_ifs at h with hc
      obtain ⟨h1, h2⟩ := hc
      injection h with h4; subst h4
      exact RwStep.startJoin s h1 h2
  | joined j =>
      simp only [rwRunEv] at h
      split_ifs at h with hj hc
      obtain ⟨h1, h2, h3⟩ := hc
      injection h with h4; subst h4
      exact RwStep.joined s j h1 hj h2 h3

theorem rwRunTr_sound {R K W : Nat} (tr : List (RwEv R)) : ∀ s s' : RwState R,
    rwRunTr R K W s tr = some s' → RwSteps R K W s tr s' := by
  induction tr with
  | nil =>
      intro s s' h
      simp only [rwRunTr] at h
      injection h with h1; subst h1
      exact RwSteps.refl s
  | cons e tr ih =>
      intro s s' h
      simp only [rwRunTr] at h
      cases hu : rwRunEv R K W s e with
      | none => rw [hu] at h; exact absurd h (by simp)
      | some u => rw [hu] at h; exact RwSteps.step (rwRunEv_sound hu) (ih u s' h)

def catMap {α β : Type} (f : α → List β) : List α → List β
  | [] => []
  | x :: xs => f x ++ catMap f xs

def repList {α : Type} (l : List α) : Nat → List α
  | 0 => []
  | k + 1 => l ++ repList l k

/-- A concrete sequential schedule of `read_write`: every reader runs all
20 of its iterations (observing 0), then the writer runs its 20
iterations, then the calling context joins reader 0 through reader 9. -/
def rwTrace : List (RwEv 10) :=
  catMap (fun i => repList [RwEv.rAcq i, RwEv.rObs i 0, RwEv.rRel i] 20) (List.finRange 10)
  ++ catMap (fun k => [RwEv.wAcq, RwEv.wInc ((k : Int) + 1), RwEv.wRel]) (List.range 20)
  ++ [RwEv.startJoin]
  ++ (List.range 10).map RwEv.joined

def rwCheck : Bool :=
  match rwRunTr 10 20 20 (rwInit 10) rwTrace with
  | some s => decide (s.mphase = MPhase.joining 10)
  | none => false

theorem rwExec : ∃ tr s, RwSteps 10 20 20 (rwInit 10) tr s ∧ s.mphase = MPhase.joining 10 := by
  have h : rwCheck = true := by decide
  unfold rwCheck at h
  cases hr : rwRunTr 10 20 20 (rwInit 10) rwTrace with
  | none => rw [hr] at h; simp at h
  | some s =>
      rw [hr] at h
      simp only [decide_eq_true_eq] at h
      exact ⟨rwTrace, s, rwRunTr_sound _ _ _ hr, h⟩

theorem mem_natSeq {a c k : Nat} : k ∈ natSeq a c ↔ a ≤ k ∧ k < a + c := by
  induction c generalizing a with
  | zero => simp [natSeq]
  | succ c ih => simp [natSeq, ih]; omega

/-! ## Claims C3-C6 and C8-C10 (read_write) -/

/-- C3 (counterexample): in the source, `read_write` guards the shared
integer with `Mutex`, not a reader/writer lock, so it is impossible for
two distinct readers to hold access (be inside their critical sections)
simultaneously in any reachable state. -/
theorem c3_counterexample :
    ¬ ∃ s : RwState 10, RwReach 10 20 20 s ∧ ∃ i j : Fin 10, i ≠ j ∧
      s.rphase i ≠ RPhase.ready ∧ s.rphase j ≠ RPhase.ready := by
  rintro ⟨s, hreach, i, j, hij, hi, hj⟩
  have hinv := rwInv_reach hreach
  have h1 := hinv.hrh i hi
  have h2 := hinv.hrh j hj
  rw [h1] at h2
  simp at h2
  exact hij h2

/-- C3 (amended): the shared integer of `read_write` is guarded by a
mutual-exclusion lock: in every reachable state at most one actor is
inside a critical section, so no reader holds access concurrently with
the writer, and also no two distinct readers hold access simultaneously. -/
theorem c3_mutual_exclusion (s : RwState 10) (hreach : RwReach 10 20 20 s) :
    (∀ i j : Fin 10, s.rphase i ≠ RPhase.ready → s.rphase j ≠ RPhase.ready → i = j)
    ∧ (∀ i : Fin 10, s.rphase i ≠ RPhase.ready →
        s.mphase ≠ MPhase.locked ∧ s.mphase ≠ MPhase.incd) := by
  have hinv := rwInv_reach hreach
  constructor
  · intro i j hi hj
    have h1 := hinv.hrh i hi
    have h2 := hinv.hrh j hj
    rw [h1] at h2
    simpa using h2
  · intro i hi
    constructor <;> intro hm
    · have h1 := hinv.hrh i hi
      have h2 := hinv.hmh (Or.inl hm)
      rw [h1] at h2; simp at h2
    · have h1 := hinv.hrh i hi
      have h2 := hinv.hmh (Or.inr hm)
      rw [h1] at h2; simp at h2

/-- The state reached from `rwInit 10` after reader 0 acquires the lock. -/
def c3Sample : RwState 10 :=
  { rwInit 10 with holder := some (Tid.reader 0)
                   rphase := Function.update (rwInit 10).rphase 0 RPhase.locked }

theorem c3Sample_reach : RwReach 10 20 20 c3Sample :=
  ⟨[RwEv.rAcq 0], RwSteps.step (RwStep.rAcq (rwInit 10) 0 rfl (by decide) rfl) (RwSteps.refl _)⟩

theorem c3_witness :
    (0 : Fin 10) = 0 ∧ c3Sample.mphase ≠ MPhase.locked ∧ c3Sample.mphase ≠ MPhase.incd := by
  have h := c3_mutual_exclusion c3Sample c3Sample_reach
  have hph : c3Sample.rphase 0 ≠ RPhase.ready := by
    simp [c3Sample, Function.update_same]
  exact ⟨h.1 0 0 hph hph, h.2 0 hph⟩

/-- C4: in any complete execution of `read_write` (the calling context has
joined all ten readers), each of the ten readers performed exactly 20
acquire, 20 observe and 20 release events and finished its loop, and the
calling context performed exactly 20 increments. -/
theorem c4_read_write_shape (tr : List (RwEv 10)) (s : RwState 10)
    (h : RwSteps 10 20 20 (rwInit 10) tr s) (hret : s.mphase = MPhase.joining 10) :
    (∀ i : Fin 10, tr.countP (isAcqOf i) = 20 ∧ tr.countP (isObsOf i) = 20
      ∧ tr.countP (isRelOf i) = 20 ∧ s.riter i = 20 ∧ s.rphase i = RPhase.ready)
    ∧ tr.countP isIncE = 20 ∧ s.witer = 20 := by
  have hinv := rwInv_steps h (rwInv_init 10 20 20)
  obtain ⟨hle, hw, hfin⟩ := hinv.hjoin 10 hret
  constructor
  · intro i
    obtain ⟨h1, h2⟩ := hfin i i.isLt
    have ha := count_acq h i
    have hb := count_obs h i
    have hc := count_rel h i
    have hinit1 : rtot (rwInit 10) i = 0 := by simp [rtot, rwInit]
    have hinit2 : otot (rwInit 10) i = 0 := by simp [otot, rwInit]
    have hinit3 : (rwInit 10).riter i = 0 := rfl
    have hfin1 : rtot s i = 20 := by simp [rtot, h1, h2]
    have hfin2 : otot s i = 20 := by simp [otot, h1, h2]
    exact ⟨by omega, by omega, by omega, h1, h2⟩
  · have hd := count_inc h
    have hinit : wtot (rwInit 10) = 0 := by simp [wtot, rwInit]
    have hfinal : wtot s = 20 := by simp [wtot, hret, hw]
    exact ⟨by omega, hw⟩

theorem c4_witness : ∃ tr s, RwSteps 10 20 20 (rwInit 10) tr s
    ∧ s.mphase = MPhase.joining 10
    ∧ tr.countP (isAcqOf 0) = 20 ∧ tr.countP isIncE = 20 ∧ s.witer = 20 := by
  obtain ⟨tr, s, h1, h2⟩ := rwExec
  have h := c4_read_write_shape tr s h1 h2
  exact ⟨tr, s, h1, h2, (h.1 0).1, h.2.1, h.2.2⟩

/-- C5: every observation of a reader emits exactly one stdout line
`"Read value as " ++ v` and every increment of the writer emits exactly
one stdout line `"Incremented value by 1 to " ++ v` — the length of the
stdout is exactly the number of observations plus the number of
increments and every line has one of the two forms — and in a complete
execution there are exactly 200 reader lines and 20 writer lines. -/
theorem c5_output_lines (tr : List (RwEv 10)) (s : RwState 10)
    (h : RwSteps 10 20 20 (rwInit 10) tr s) (hret : s.mphase = MPhase.joining 10) :
    (outputs tr).length = tr.countP isObsE + tr.countP isIncE
    ∧ tr.countP isObsE = 200 ∧ tr.countP isIncE = 20
    ∧ (∀ i v, RwEv.rObs i v ∈ tr → readMsg v ∈ outputs tr)
    ∧ (∀ v, RwEv.wInc v ∈ tr → writeMsg v ∈ outputs tr)
    ∧ (∀ l ∈ outputs tr, (∃ v : Int, 0 ≤ v ∧ v ≤ 20 ∧ l = readMsg v)
        ∨ (∃ v : Int, 1 ≤ v ∧ v ≤ 20 ∧ l = writeMsg v)) := by
  have hinv0 := rwInv_init 10 20 20
  have hinv := rwInv_steps h hinv0
  obtain ⟨hle, hw, hfin⟩ := hinv.hjoin 10 hret
  refine ⟨outputs_length tr, ?_, ?_, ?_, ?_, ?_⟩
  · have hcnt := count_obs_tot h
    have hinit : ototSum (rwInit 10) = 0 := by simp [ototSum, otot, rwInit]
    have hfinal : ototSum s = 200 := by
      have h1 : ∀ i : Fin 10, otot s i = 20 := fun i => by
        obtain ⟨ha, hb⟩ := hfin i i.isLt
        simp [otot, ha, hb]
      calc ototSum s = ∑ _i : Fin 10, 20 := Finset.sum_congr rfl (fun i _ => h1 i)
        _ = 200 := by decide
    omega
  · have hcnt := count_inc h
    have hinit : wtot (rwInit 10) = 0 := by simp [wtot, rwInit]
    have hfinal : wtot s = 20 := by simp [wtot, hret, hw]
    omega
  · intro i v hv
    exact List.mem_filterMap.mpr ⟨RwEv.rObs i v, hv, rfl⟩
  · intro v hv
    exact List.mem_filterMap.mpr ⟨RwEv.wInc v, hv, rfl⟩
  · intro l hl
    obtain ⟨e, he, hle'⟩ := List.mem_filterMap.mp hl
    cases e with
    | rObs i v =>
        left
        have hrange := obs_range h hinv0 i v he
        simp only [lineOf, Option.some.injEq] at hle'
        exact ⟨v, hrange.1, by exact_mod_cast hrange.2, hle'.symm⟩
    | wInc v =>
        right
        have hws := writesOf_eq h hinv0
        have hv' : v ∈ writesOf tr :=
          List.mem_filterMap.mpr ⟨RwEv.wInc v, he, rfl⟩
        have hinit : wtot (rwInit 10) = 0 := by simp [wtot, rwInit]
        have hfinal : wtot s = 20 := by simp [wtot, hret, hw]
        rw [hws, hinit, hfinal] at hv'
        simp only [Nat.sub_zero, List.mem_map] at hv'
        obtain ⟨k, hk, hkv⟩ := hv'
        have hkb := mem_natSeq.mp hk
        simp only [lineOf, Option.some.injEq] at hle'
        refine ⟨v, by omega, by omega, hle'.symm⟩
    | rAcq i => simp [lineOf] at hle'
    | rRel i => simp [lineOf] at hle'
    | wAcq => simp [lineOf] at hle'
    | wRel => simp [lineOf] at hle'
    | startJoin => simp [lineOf] at hle'
    | joined j => simp [lineOf] at hle'

theorem c5_witness : ∃ tr s, RwSteps 10 20 20 (rwInit 10) tr s
    ∧ s.mphase = MPhase.joining 10
    ∧ (outputs tr).length = tr.countP isObsE + tr.countP isIncE
    ∧ tr.countP isObsE = 200 ∧ tr.countP isIncE = 20 := by
  obtain ⟨tr, s, h1, h2⟩ := rwExec
  have h := c5_output_lines tr s h1 h2
  exact ⟨tr, s, h1, h2, h.1, h.2.1, h.2.2.1⟩

/-- C6: no torn reads — every value observed by any reader along any
execution of `read_write` is one of the committed values 0, 1, ..., 20. -/
theorem c6_no_torn_reads (tr : List (RwEv 10)) (s : RwState 10)
    (h : RwSteps 10 20 20 (rwInit 10) tr s) :
    ∀ i v, RwEv.rObs i v ∈ tr → 0 ≤ v ∧ v ≤ 20 := by
  intro i v hv
  have hr := obs_range h (rwInv_init 10 20 20) i v hv
  exact ⟨hr.1, by exact_mod_cast hr.2⟩

theorem c6_witness : ∃ tr s, RwSteps 10 20 20 (rwInit 10) tr s
    ∧ RwEv.rObs 0 0 ∈ tr ∧ (0 : Int) ≤ 0 ∧ (0 : Int) ≤ 20 := by
  have hstep1 : RwStep 10 20 20 (rwInit 10) (RwEv.rAcq 0) c3Sample :=
    RwStep.rAcq (rwInit 10) 0 rfl (by decide) rfl
  have hstep2 : RwStep 10 20 20 c3Sample (RwEv.rObs 0 c3Sample.value)
      { c3Sample with rphase := Function.update c3Sample.rphase 0 RPhase.obsd } :=
    RwStep.rObs c3Sample 0 (by simp [c3Sample, Function.update_same])
  have htr : RwSteps 10 20 20 (rwInit 10) [RwEv.rAcq 0, RwEv.rObs 0 0] _ :=
    RwSteps.step hstep1 (RwSteps.step hstep2 (RwSteps.refl _))
  have hmem : (RwEv.rObs 0 0 : RwEv 10) ∈ ([RwEv.rAcq 0, RwEv.rObs 0 0] : List (RwEv 10)) := by
    simp
  have hr := c6_no_torn_reads _ _ htr 0 0 hmem
  exact ⟨_, _, htr, hmem, hr.1, hr.2⟩

/-- C9: in a complete execution of `read_write` the writer's emitted
values are exactly 1, 2, ..., 20 in this strictly increasing order, its
emitted lines are exactly the corresponding `writeMsg` lines in order,
and the guarded value at the end is exactly 20. -/
theorem c9_writer_sequence (tr : List (RwEv 10)) (s : RwState 10)
    (h : RwSteps 10 20 20 (rwInit 10) tr s) (hret : s.mphase = MPhase.joining 10) :
    writesOf tr = [1, 2, 3, 4, 5, 6, 7, 8, 9, 10,
      11, 12, 13, 14, 15, 16, 17, 18, 19, 20]
    ∧ tr.filterMap wlineOf = (natSeq 0 20).map (fun (k : Nat) => writeMsg ((k : Int) + 1))
    ∧ s.value = 20 := by
  have hinv0 := rwInv_init 10 20 20
  have hinv := rwInv_steps h hinv0
  obtain ⟨hle, hw, hfin⟩ := hinv.hjoin 10 hret
  have hws := writesOf_eq h hinv0
  have hinit : wtot (rwInit 10) = 0 := by simp [wtot, rwInit]
  have hfinal : wtot s = 20 := by simp [wtot, hret, hw]
  rw [hinit, hfinal] at hws
  simp only [Nat.sub_zero] at hws
  have hconc : (natSeq 0 20).map (fun k => ((k : Nat) : Int) + 1)
      = [1, 2, 3, 4, 5, 6, 7, 8, 9, 10, 11, 12, 13, 14, 15, 16, 17, 18, 19, 20] := by
    decide
  refine ⟨by rw [hws, hconc], ?_, ?_⟩
  · rw [wline_map, hws, List.map_map]
    rfl
  · have hv := hinv.hval
    rw [hret, hw] at hv
    simpa using hv

theorem c9_witness : ∃ tr s, RwSteps 10 20 20 (rwInit 10) tr s
    ∧ s.mphase = MPhase.joining 10
    ∧ writesOf tr = [1, 2, 3, 4, 5, 6, 7, 8, 9, 10,
        11, 12, 13, 14, 15, 16, 17, 18, 19, 20]
    ∧ s.value = 20 := by
  obtain ⟨tr, s, h1, h2⟩ := rwExec
  have h := c9_writer_sequence tr s h1 h2
  exact ⟨tr, s, h1, h2, h.1, h.2.2⟩

/-- C10: readers never modify the guarded integer — every reader event
leaves the value unchanged; while a reader holds the lock no step changes
the value (so the value at its release equals the value at its
acquisition) and the lock stays with that reader until its release; and
the only value-changing event is the calling context's increment. -/
theorem c10_readers_no_mutation (s : RwState 10) (hreach : RwReach 10 20 20 s)
    (e : RwEv 10) (s' : RwState 10) (hst : RwStep 10 20 20 s e s') :
    ((∃ i : Fin 10, e = RwEv.rAcq i ∨ e = RwEv.rRel i ∨ ∃ v, e = RwEv.rObs i v) →
        s'.value = s.value)
    ∧ (∀ i : Fin 10, s.holder = some (Tid.reader i) →
        s'.value = s.value ∧ (e = RwEv.rRel i ∨ s'.holder = some (Tid.reader i)))
    ∧ (s'.value ≠ s.value → e = RwEv.wInc (s.value + 1)) := by
  have hinv := rwInv_reach hreach
  refine ⟨?_, ?_, ?_⟩
  · rintro ⟨i, hcase⟩
    cases hst <;> simp_all
  · intro i hh
    cases hst with
    | rAcq j hph hit hfree => rw [hh] at hfree; simp at hfree
    | rObs j hph => exact ⟨rfl, Or.inr hh⟩
    | rRel j hph =>
        have h2 := hinv.hrh j (by rw [hph]; simp)
        rw [hh] at h2
        simp at h2
        exact ⟨rfl, Or.inl (by rw [h2])⟩
    | wAcq hph hit hfree => rw [hh] at hfree; simp at hfree
    | wInc hph =>
        have h2 := hinv.hmh (Or.inl hph)
        rw [hh] at h2; simp at h2
    | wRel hph =>
        have h2 := hinv.hmh (Or.inr hph)
        rw [hh] at h2; simp at h2
    | startJoin hph hw => exact ⟨rfl, Or.inr hh⟩
    | joined j hph hj hfin hfp => exact ⟨rfl, Or.inr hh⟩
  · intro hv
    cases hst <;> first | (exact absurd rfl hv) | rfl

theorem c10_witness : c3Sample.value = (rwInit 10).value := by
  have hstep : RwStep 10 20 20 (rwInit 10) (RwEv.rAcq 0) c3Sample :=
    RwStep.rAcq (rwInit 10) 0 rfl (by decide) rfl
  exact (c10_readers_no_mutation (rwInit 10) ⟨[], RwSteps.refl _⟩ _ _ hstep).1 ⟨0, Or.inl rfl⟩

/-- C8: both demo routines terminate for every parameter choice: any
reachable non-final state has an enabled step (no deadlock), and every
execution has length bounded by an explicit function of the parameters
(`n` increments per actor for the `counter` demo; `R` readers with `K`
iterations and `W` writer iterations for `read_write`). -/
theorem c8_termination (n R K W : Nat) :
    (∀ (v0 : Int) (s : CState), (∃ tr, CSteps n (cInit v0) tr s) →
        s.mph = MCPh.returned ∨ ∃ e s', CStep n s e s')
    ∧ (∀ (v0 : Int) (tr : List CEv) (s : CState), CSteps n (cInit v0) tr s →
        tr.length ≤ 6 * n + 2)
    ∧ (∀ s : RwState R, RwReach R K W s →
        s.mphase = MPhase.joining R ∨ ∃ e s', RwStep R K W s e s')
    ∧ (∀ (tr : List (RwEv R)) (s : RwState R), RwSteps R K W (rwInit R) tr s →
        tr.length ≤ 3 * R * K + 3 * W + R + 2) := by
  refine ⟨?_, ?_, ?_, ?_⟩
  · rintro v0 s ⟨tr, htr⟩
    by_cases hret : s.mph = MCPh.returned
    · exact Or.inl hret
    · exact Or.inr (c_progress (cInv_steps htr (cInv_init n v0)) hret)
  · intro v0 tr s htr
    have h1 := cSteps_len htr
    have h2 : cMeasure n (cInit v0) = 6 * n + 2 := by
      simp only [cMeasure, cInit]; omega
    omega
  · intro s hreach
    by_cases hret : s.mphase = MPhase.joining R
    · exact Or.inl hret
    · exact Or.inr (rw_progress (rwInv_reach hreach) hret)
  · intro tr s htr
    have h1 := rwSteps_len htr
    have h2 := rwMeasure_init R K W
    omega

theorem c8_witness :
    ((cInit 0).mph = MCPh.returned ∨ ∃ e s', CStep 0 (cInit 0) e s')
    ∧ (([] : List (RwEv 0)).length ≤ 3 * 0 * 0 + 3 * 0 + 0 + 2) := by
  obtain ⟨h1, h2, h3, h4⟩ := c8_termination 0 0 0 0
  exact ⟨h1 0 (cInit 0) ⟨[], CSteps.refl _⟩, h4 [] (rwInit 0) (RwSteps.refl _)⟩

/-! ## `read_write` with lock poisoning (claim C7)

Every lock acquisition in the source is `lock().unwrap()`.  Modelled from
the documented behaviour of `std::sync::Mutex`: when a holder terminates
abnormally (panics) inside the critical section, the guard's drop marks
the mutex as poisoned and releases it; every later `lock()` returns
`Err(PoisonError)`, which the source's `unwrap()` turns into a panic of
the calling thread, so the guarded value is never handed out again and
the poison mark is never cleared.  The `panicR`/`panicM` rules make an
abnormal termination inside a critical section possible; the
`acqPanicR`/`acqPanicM` rules are `lock().unwrap()` hitting a poisoned
mutex; `joinPanicked` is `handle.join().unwrap()` on a panicked reader. -/

inductive RPPh
  | ready
  | locked
  | obsd
  | panicked
deriving DecidableEq

inductive MPPh
  | ready
  | locked
  | incd
  | joining (j : Nat)
  | panicked
deriving DecidableEq

structure PState (R : Nat) where
  value : Int
  holder : Option (Tid R)
  poisoned : Bool
  riter : Fin R → Nat
  rphase : Fin R → RPPh
  witer : Nat
  mphase : MPPh

inductive PEv (R : Nat)
  | rAcq (i : Fin R)
  | rObs (i : Fin R) (v : Int)
  | rRel (i : Fin R)
  | wAcq
  | wInc (v : Int)
  | wRel
  | startJoin
  | joined (j : Nat)
  | panicR (i : Fin R)
  | panicM
  | acqPanicR (i : Fin R)
  | acqPanicM
  | joinPanicked (j : Nat)
deriving DecidableEq

def pInit (R : Nat) : PState R :=
  { value := 0, holder := none, poisoned := false, riter := fun _ => 0
    rphase := fun _ => RPPh.ready, witer := 0, mphase := MPPh.ready }

inductive PStep (R K W : Nat) : PState R → PEv R → PState R → Prop
  | rAcq (s : PState R) (i : Fin R) (hph : s.rphase i = RPPh.ready) (hit : s.riter i < K)
      (hfree : s.holder = none) (hpo : s.poisoned = false) :
      PStep R K W s (PEv.rAcq i)
        { s with holder := some (Tid.reader i)
                 rphase := Function.update s.rphase i RPPh.locked }
  | rObs (s : PState R) (i : Fin R) (hph : s.rphase i = RPPh.locked) :
      PStep R K W s (PEv.rObs i s.value)
        { s with rphase := Function.update s.rphase i RPPh.obsd }
  | rRel (s : PState R) (i : Fin R) (hph : s.rphase i = RPPh.obsd) :
      PStep R K W s (PEv.rRel i)
        { s with holder := none
                 rphase := Function.update s.rphase i RPPh.ready
                 riter := Function.update s.riter i (s.riter i + 1) }
  | wAcq (s : PState R) (hph : s.mphase = MPPh.ready) (hit : s.witer < W)
      (hfree : s.holder = none) (hpo : s.poisoned = false) :
      PStep R K W s PEv.wAcq { s with holder := some Tid.main, mphase := MPPh.locked }
  | wInc (s : PState R) (hph : s.mphase = MPPh.locked) :
      PStep R K W s (PEv.wInc (s.value + 1))
        { s with value := s.value + 1, mphase := MPPh.incd }
  | wRel (s : PState R) (hph : s.mphase = MPPh.incd) :
      PStep R K W s PEv.wRel
        { s with holder := none, mphase := MPPh.ready, witer := s.witer + 1 }
  | startJoin (s : PState R) (hph : s.mphase = MPPh.ready) (hw : s.witer = W) :
      PStep R K W s PEv.startJoin { s with mphase := MPPh.joining 0 }
  | joined (s : PState R) (j : Nat) (hph : s.mphase = MPPh.joining j) (hj : j < R)
      (hfin : s.riter ⟨j, hj⟩ = K) (hfp : s.rphase ⟨j, hj⟩ = RPPh.ready) :
      PStep R K W s (PEv.joined j) { s with mphase := MPPh.joining (j + 1) }
  | panicR (s : PState R) (i : Fin R)
      (hph : s.rphase i = RPPh.locked ∨ s.rphase i = RPPh.obsd) :
      PStep R K W s (PEv.panicR i)
        { s with holder := none, poisoned := true
                 rphase := Function.update s.rphase i RPPh.panicked }
  | panicM (s : PState R) (hph : s.mphase = MPPh.locked ∨ s.mphase = MPPh.incd) :
      PStep R K W s PEv.panicM
        { s with holder := none, poisoned := true, mphase := MPPh.panicked }
  | acqPanicR (s : PState R) (i : Fin R) (hph : s.rphase i = RPPh.ready)
      (hit : s.riter i < K) (hfree : s.holder = none) (hpo : s.poisoned = true) :
      PStep R K W s (PEv.acqPanicR i)
        { s with rphase := Function.update s.rphase i RPPh.panicked }
  | acqPanicM (s : PState R) (hph : s.mphase = MPPh.ready) (hit : s.witer < W)
      (hfree : s.holder = none) (hpo : s.poisoned = true) :
      PStep R K W s PEv.acqPanicM { s with mphase := MPPh.panicked }
  | joinPanicked (s : PState R) (j : Nat) (hph : s.mphase = MPPh.joining j) (hj : j < R)
      (hrp : s.rphase ⟨j, hj⟩ = RPPh.panicked) :
      PStep R K W s (PEv.joinPanicked j) { s with mphase := MPPh.panicked }

inductive PSteps (R K W : Nat) : PState R → List (PEv R) → PState R → Prop
  | refl (s : PState R) : PSteps R K W s [] s
  | step {s u s' : PState R} {e : PEv R} {tr : List (PEv R)} :
      PStep R K W s e u → PSteps R K W u tr s' → PSteps R K W s (e :: tr) s'

def PReach (R K W : Nat) (s : PState R) : Prop :=
  ∃ tr, PSteps R K W (pInit R) tr s

/-- Invariant of the poisoning model: the holder field is consistent with
the phases, and a poisoned lock is free with nobody inside a critical
section. -/
structure PInv (R K W : Nat) (s : PState R) : Prop where
  pr1 : ∀ i, s.rphase i = RPPh.locked ∨ s.rphase i = RPPh.obsd →
      s.holder = some (Tid.reader i)
  pm1 : s.mphase = MPPh.locked ∨ s.mphase = MPPh.incd → s.holder = some Tid.main
  ppo : s.poisoned = true → s.holder = none
      ∧ (∀ i, s.rphase i ≠ RPPh.locked ∧ s.rphase i ≠ RPPh.obsd)
      ∧ s.mphase ≠ MPPh.locked ∧ s.mphase ≠ MPPh.incd

theorem pInv_init (R K W : Nat) : PInv R K W (pInit R) := by
  refine ⟨?_, ?_, ?_⟩ <;> simp [pInit]

theorem pInv_step {R K W : Nat} {s s' : PState R} {e : PEv R}
    (h : PStep R K W s e s') (hi : PInv R K W s) : PInv R K W s' := by
  obtain ⟨pr1, pm1, ppo⟩ := hi
  cases h with
  | rAcq i hph hit hfree hpo =>
      refine ⟨?_, ?_, ?_⟩
      · intro j hj
        by_cases hij : j = i
        · subst hij; rfl
        · simp only [Function.update_noteq hij] at hj
          have h2 := pr1 j hj; rw [hfree] at h2; simp at h2
      · intro hm; have h2 := pm1 hm; rw [hfree] at h2; simp at h2
      · intro hp; rw [hpo] at hp; simp at hp
  | rObs i hph =>
      refine ⟨?_, pm1, ?_⟩
      · intro j hj
        by_cases hij : j = i
        · subst hij; exact pr1 j (Or.inl hph)
        · simp only [Function.update_noteq hij] at hj
          exact pr1 j hj
      · intro hp; exact absurd hph ((ppo hp).2.1 i).1
  | rRel i hph =>
      refine ⟨?_, ?_, ?_⟩
      · intro j hj
        by_cases hij : j = i
        · subst hij; simp only [Function.update_same] at hj
          rcases hj with hj | hj <;> simp at hj
        · simp only [Function.update_noteq hij] at hj
          have h2 := pr1 j hj
          have h3 := pr1 i (Or.inr hph)
          rw [h2] at h3; simp at h3
          exact absurd h3 hij
      · intro hm
        have h2 := pm1 hm
        have h3 := pr1 i (Or.inr hph)
        rw [h2] at h3; simp at h3
      · intro hp; exact absurd hph ((ppo hp).2.1 i).2
  | wAcq hph hit hfree hpo =>
      refine ⟨?_, fun _ => rfl, ?_⟩
      · intro j hj; have h2 := pr1 j hj; rw [hfree] at h2; simp at h2
      · intro hp; rw [hpo] at hp; simp at hp
  | wInc hph =>
      refine ⟨pr1, fun _ => pm1 (Or.inl hph), ?_⟩
      · intro hp; exact absurd hph (ppo hp).2.2.1
  | wRel hph =>
      refine ⟨?_, ?_, ?_⟩
      · intro j hj
        have h2 := pr1 j hj
        have h3 := pm1 (Or.inr hph)
        rw [h2] at h3; simp at h3
      · rintro (h | h) <;> simp at h
      · intro hp; exact absurd hph (ppo hp).2.2.2
  | startJoin hph hw =>
      refine ⟨pr1, ?_, ?_⟩
      · rintro (h | h) <;> simp at h
      · intro hp
        exact ⟨(ppo hp).1, (ppo hp).2.1, by simp, by simp⟩
  | joined j hph hj hfin hfp =>
      refine ⟨pr1, ?_, ?_⟩
      · rintro (h | h) <;> simp at h
      · intro hp
        exact ⟨(ppo hp).1, (ppo hp).2.1, by simp, by simp⟩
  | panicR i hph =>
      refine ⟨?_, ?_, ?_⟩
      · intro j hj
        by_cases hij : j = i
        · subst hij; simp only [Function.update_same] at hj
          rcases hj with hj | hj <;> simp at hj
        · simp only [Function.update_noteq hij] at hj
          have h2 := pr1 j hj
          have h3 := pr1 i hph
          rw [h2] at h3; simp at h3
          exact absurd h3 hij
      · intro hm
        have h2 := pm1 hm
        have h3 := pr1 i hph
        rw [h2] at h3; simp at h3
      · intro _
        refine ⟨rfl, ?_, ?_, ?_⟩
        · intro j
          by_cases hij : j = i
          · subst hij; simp [Function.update_same]
          · simp only [Function.update_noteq hij]
            constructor <;> intro hj
            · have h2 := pr1 j (Or.inl hj)
              have h3 := pr1 i hph
              rw [h2] at h3; simp at h3
              exact absurd h3 hij
            · have h2 := pr1 j (Or.inr hj)
              have h3 := pr1 i hph
              rw [h2] at h3; simp at h3
              exact absurd h3 hij
        · intro hm
          have h2 := pm1 (Or.inl hm)
          have h3 := pr1 i hph
          rw [h2] at h3; simp at h3
        · intro hm
          have h2 := pm1 (Or.inr hm)
          have h3 := pr1 i hph
          rw [h2] at h3; simp at h3
  | panicM hph =>
      refine ⟨?_, ?_, ?_⟩
      · intro j hj
        have h2 := pr1 j hj
        have h3 := pm1 hph
        rw [h2] at h3; simp at h3
      · rintro (h | h) <;> simp at h
      · intro _
        refine ⟨rfl, ?_, by simp, by simp⟩
        intro j
        constructor <;> intro hj
        · have h2 := pr1 j (Or.inl hj)
          have h3 := pm1 hph
          rw [h2] at h3; simp at h3
        · have h2 := pr1 j (Or.inr hj)
          have h3 := pm1 hph
          rw [h2] at h3; simp at h3
  | acqPanicR i hph hit hfree hpo =>
      refine ⟨?_, ?_, ?_⟩
      · intro j hj
        by_cases hij : j = i
        · subst hij; simp only [Function.update_same] at hj
          rcases hj with hj | hj <;> simp at hj
        · simp only [Function.update_noteq hij] at hj
          rcases hj with hj | hj
          · exact absurd hj ((ppo hpo).2.1 j).1
          · exact absurd hj ((ppo hpo).2.1 j).2
      · intro hm
        rcases hm with hm | hm
        · exact absurd hm (ppo hpo).2.2.1
        · exact absurd hm (ppo hpo).2.2.2
      · intro _
        refine ⟨hfree, ?_, (ppo hpo).2.2.1, (ppo hpo).2.2.2⟩
        intro j
        by_cases hij : j = i
        · subst hij; simp [Function.update_same]
        · simp only [Function.update_noteq hij]
          exact (ppo hpo).2.1 j
  | acqPanicM hph hit hfree hpo =>
      refine ⟨?_, ?_, ?_⟩
      · intro j hj
        rcases hj with hj | hj
        · exact absurd hj ((ppo hpo).2.1 j).1
        · exact absurd hj ((ppo hpo).2.1 j).2
      · rintro (h | h) <;> simp at h
      · intro _
        exact ⟨hfree, (ppo hpo).2.1, by simp, by simp⟩
  | joinPanicked j hph hj hrp =>
      refine ⟨pr1, ?_, ?_⟩
      · rintro (h | h) <;> simp at h
      · intro hp
        exact ⟨(ppo hp).1, (ppo hp).2.1, by simp, by simp⟩

theorem pInv_steps {R K W : Nat} {s s' : PState R} {tr : List (PEv R)}
    (h : PSteps R K W s tr s') (hi : PInv R K W s) : PInv R K W s' := by
  induction h with
  | refl => exact hi
  | step hst _ ih => exact ih (pInv_step hst hi)

theorem pInv_reach {R K W : Nat} {s : PState R} (h : PReach R K W s) : PInv R K W s := by
  obtain ⟨tr, htr⟩ := h
  exact pInv_steps htr (pInv_init R K W)

/-- Events that neither successfully acquire the lock nor act on the
guarded value: after poisoning these are the only possible events. -/
def pquiet {R : Nat} : PEv R → Prop := fun e =>
  match e with
  | PEv.rAcq _ => False
  | PEv.rObs _ _ => False
  | PEv.wAcq => False
  | PEv.wInc _ => False
  | _ => True

theorem poisoned_quiet {R K W : Nat} : ∀ {s s₂ : PState R} {tr : List (PEv R)},
    PSteps R K W s tr s₂ → PInv R K W s → s.poisoned = true →
    s₂.poisoned = true ∧ ∀ e ∈ tr, pquiet e := by
  intro s s₂ tr h
  induction h with
  | refl => intro _ hp; exact ⟨hp, by simp⟩
  | step hst hrest ih =>
      intro hi hp
      have hiu := pInv_step hst hi
      cases hst with
      | rAcq i hph hit hfree hpo => rw [hpo] at hp; simp at hp
      | rObs i hph => exact absurd hph ((hi.ppo hp).2.1 i).1
      | rRel i hph =>
          obtain ⟨ha, hb⟩ := ih hiu hp
          exact ⟨ha, by
            intro e he
            rcases List.mem_cons.mp he with he | he
            · rw [he]; trivial
            · exact hb e he⟩
      | wAcq hph hit hfree hpo => rw [hpo] at hp; simp at hp
      | wInc hph => exact absurd hph (hi.ppo hp).2.2.1
      | wRel hph => exact absurd hph (hi.ppo hp).2.2.2
      | startJoin hph hw =>
          obtain ⟨ha, hb⟩ := ih hiu hp
          exact ⟨ha, by
            intro e he
            rcases List.mem_cons.mp he with he | he
            · rw [he]; trivial
            · exact hb e he⟩
      | joined j hph hj hfin hfp =>
          obtain ⟨ha, hb⟩ := ih hiu hp
          exact ⟨ha, by
            intro e he
            rcases List.mem_cons.mp he with he | he
            · rw [he]; trivial
            · exact hb e he⟩
      | panicR i hph =>
          obtain ⟨ha, hb⟩ := ih hiu rfl
          exact ⟨ha, by
            intro e he
            rcases List.mem_cons.mp he with he | he
            · rw [he]; trivial
            · exact hb e he⟩
      | panicM hph =>
          obtain ⟨ha, hb⟩ := ih hiu rfl
          exact ⟨ha, by
            intro e he
            rcases List.mem_cons.mp he with he | he
            · rw [he]; trivial
            · exact hb e he⟩
      | acqPanicR i hph hit hfree hpo =>
          obtain ⟨ha, hb⟩ := ih hiu hp
          exact ⟨ha, by
            intro e he
            rcases List.mem_cons.mp he with he | he
            · rw [he]; trivial
            · exact hb e he⟩
      | acqPanicM hph hit hfree hpo =>
          obtain ⟨ha, hb⟩ := ih hiu hp
          exact ⟨ha, by
            intro e he
            rcases List.mem_cons.mp he with he | he
            · rw [he]; trivial
            · exact hb e he⟩
      | joinPanicked j hph hj hrp =>
          obtain ⟨ha, hb⟩ := ih hiu hp
          exact ⟨ha, by
            intro e he
            rcases List.mem_cons.mp he with he | he
            · rw [he]; trivial
            · exact hb e he⟩

/-- C7: once the lock is poisoned (a holder terminated abnormally inside
its critical section), the poison mark is never cleared, no actor ever
again successfully acquires the lock, observes or mutates the guarded
value along any continuation; and any reader or the writer that attempts
a `lock().unwrap()` acquisition panics. -/
theorem c7_poisoning_fatal (s : PState 10) (hreach : PReach 10 20 20 s)
    (hp : s.poisoned = true) :
    (∀ (tr : List (PEv 10)) (s₂ : PState 10), PSteps 10 20 20 s tr s₂ →
        s₂.poisoned = true ∧ ∀ e ∈ tr, pquiet e)
    ∧ (∀ i : Fin 10, s.rphase i = RPPh.ready → s.riter i < 20 →
        PStep 10 20 20 s (PEv.acqPanicR i)
          { s with rphase := Function.update s.rphase i RPPh.panicked })
    ∧ (s.mphase = MPPh.ready → s.witer < 20 →
        PStep 10 20 20 s PEv.acqPanicM { s with mphase := MPPh.panicked }) := by
  have hinv := pInv_reach hreach
  have hfree := (hinv.ppo hp).1
  refine ⟨?_, ?_, ?_⟩
  · intro tr s₂ htr
    exact poisoned_quiet htr hinv hp
  · intro i hph hit
    exact PStep.acqPanicR s i hph hit hfree hp
  · intro hph hit
    exact PStep.acqPanicM s hph hit hfree hp

/-- The state reached after reader 0 acquires the lock of `read_write`. -/
def pSample1 : PState 10 :=
  { pInit 10 with holder := some (Tid.reader 0)
                  rphase := Function.update (pInit 10).rphase 0 RPPh.locked }

/-- The state reached when reader 0 then terminates abnormally inside its
critical section: the lock is released and poisoned. -/
def pSample2 : PState 10 :=
  { pSample1 with holder := none, poisoned := true
                  rphase := Function.update pSample1.rphase 0 RPPh.panicked }

theorem pSample2_reach : PReach 10 20 20 pSample2 :=
  ⟨[PEv.rAcq 0, PEv.panicR 0],
    PSteps.step (PStep.rAcq (pInit 10) 0 rfl (by decide) rfl rfl)
      (PSteps.step
        (PStep.panicR pSample1 0 (Or.inl (by simp [pSample1, Function.update_same])))
        (PSteps.refl _))⟩

theorem c7_witness : pSample2.poisoned = true ∧
    PStep 10 20 20 pSample2 PEv.acqPanicM { pSample2 with mphase := MPPh.panicked } := by
  have h := c7_poisoning_fatal pSample2 pSample2_reach rfl
  exact ⟨rfl, h.2.2 rfl (by decide)⟩
